import Mathlib

/-!
Verification development for the camofox-browser control plane.

Shallow embedding of the core orchestrator components, translated from the
TypeScript sources:

* `src/src/utils/snapshot.ts` — snapshot windowing (`windowSnapshot`);
* `src/services/tab.ts` — tab lock (`withTabLock`), ref extraction
  (`buildRefs`), script evaluation (`evaluateTab`);
* `src/services/session.ts` — session/tab registry (`findTabById`),
  per-user concurrency limiter (`withUserLimit`);
* `src/src/middleware/rate-limit.ts` — fixed-window rate limiter
  (`checkRateLimit`);
* `src/src/services/` download registry (`upsertDownload`).

JavaScript strings are modelled as `List Char` (one entry per UTF-16 code
unit in the source's terms; all the constants involved are ASCII, where the
two notions agree).  JavaScript `Map`s are modelled as association lists with
insert-or-replace (`Map.set`) preserving insertion order, exactly as V8 does.
Asynchronous code is modelled by a deterministic event-loop interpreter:
macrotasks (HTTP arrivals, promise settlements from the browser engine) are
consumed from an explicit schedule and the microtask queue is drained to a
fixpoint after each, which is precisely Node's scheduling for this code.
-/

set_option maxRecDepth 10000

namespace Camofox

/-! ### Association lists (JS `Map` with string keys) -/

/-- `m.get(k)`: first binding of `k` (maps never hold a key twice). -/
def alookup {κ α : Type} [DecidableEq κ] : List (κ × α) → κ → Option α
  | [], _ => none
  | (k, v) :: t, k' => if k = k' then some v else alookup t k'

/-- `m.set(k, v)`: replace in place if present, append otherwise. -/
def aset {κ α : Type} [DecidableEq κ] : List (κ × α) → κ → α → List (κ × α)
  | [], k, v => [(k, v)]
  | (k0, v0) :: t, k, v =>
      if k0 = k then (k, v) :: t else (k0, v0) :: aset t k v

/-- `m.delete(k)`: remove the binding of `k` if present. -/
def aremove {κ α : Type} [DecidableEq κ] : List (κ × α) → κ → List (κ × α)
  | [], _ => []
  | (k0, v0) :: t, k => if k0 = k then t else (k0, v0) :: aremove t k

/-! ### Snapshot windowing — `src/src/utils/snapshot.ts`, `windowSnapshot` -/

/-- Result record of `windowSnapshot` (`WindowSnapshotResult`).  The early
return for a missing/empty snapshot omits `hasMore`/`nextOffset`, hence the
`Option` wrappers (an absent field is `none`). -/
structure WindowSnapshotResult where
  text : List Char
  truncated : Bool
  totalChars : Nat
  offset : Nat
  hasMore : Option Bool
  nextOffset : Option (Option Nat)
deriving DecidableEq, Repr

/-- `s.slice(-k)` for `k ≥ 0`: the last `k` characters — except that
`s.slice(-0)` is `s.slice(0)`, the whole string. -/
def jsSliceNeg (s : List Char) (k : Nat) : List Char :=
  if k = 0 then s else s.drop (s.length - k)

/-- Decimal digits of `n`, as the characters JS string interpolation emits. -/
def natChars (n : Nat) : List Char := (Nat.repr n).data

/-- The `hasMore` marker text inserted between the window and the tail
(snapshot.ts line 51). -/
def markerChars (chunkEnd total : Nat) : List Char :=
  '\n' :: ("[... truncated at char ".data ++ natChars chunkEnd ++ " of ".data
    ++ natChars total ++ ". Call snapshot with offset=".data ++ natChars chunkEnd
    ++ " to see more. Pagination links below. ...]".data) ++ ['\n']

/-- `windowSnapshot(yaml, offset, maxChars, tailChars)` translated line by
line from snapshot.ts lines 24-62.  `yaml = none` stands for the
`null`/`undefined` inputs; the requested `offset` is an arbitrary JS integer. -/
def windowSnapshot (yaml : Option (List Char)) (offset : Int)
    (maxChars tailChars : Nat) : WindowSnapshotResult :=
  match yaml with
  | none => ⟨[], false, 0, 0, none, none⟩
  | some y =>
    if y = [] then ⟨[], false, 0, 0, none, none⟩
    else
      let total := y.length
      if total ≤ maxChars then
        ⟨y, false, total, 0, some false, some none⟩
      else
        let safeTailChars := min tailChars total
        let safeMaxChars := max 1 maxChars
        let markerBudget := 200
        let minContentBudget := 100
        let contentBudget := max minContentBudget (safeMaxChars - safeTailChars - markerBudget)
        let tail := jsSliceNeg y safeTailChars
        let maxOffset := total - safeTailChars
        let clampedOffset := min (max 0 offset).toNat maxOffset
        let chunk := (y.drop clampedOffset).take contentBudget
        let chunkEnd := clampedOffset + contentBudget
        let hasMore := chunkEnd < total - safeTailChars
        let marker := if hasMore then markerChars chunkEnd total else ['\n']
        ⟨chunk ++ marker ++ tail, true, total, clampedOffset, some (decide hasMore),
          some (if hasMore then some chunkEnd else none)⟩

/-- The last `k` characters of `s` (`k` clamped to the length). -/
def lastChars (s : List Char) (k : Nat) : List Char := s.drop (s.length - k)

/-! ### Ref extraction — `src/services/tab.ts`, `buildRefs`

The engine-side part of `buildRefs` (page readiness, fetching the aria
snapshot with retry) only produces the YAML text; the model covers the pure
extraction loop over that text (tab.ts lines 247-274).  The candidate regex
`^\s*-\s+(\w+)(?:\s+"([^"]*)")?` is deterministic — `\w` cannot match where
`\s+` must and vice versa, so no backtracking changes the outcome — and is
translated into `parseCandidate`. -/

/-- JS regex `\s` on the characters that can occur in a snapshot line. -/
def isJsSpace (c : Char) : Bool :=
  c = ' ' || c = '\t' || c = '\n' || c = '\r' || c = '\x0b' || c = '\x0c'

/-- JS regex `\w`: ASCII letters, digits and underscore. -/
def isWordChar (c : Char) : Bool :=
  ('a' ≤ c && c ≤ 'z') || ('A' ≤ c && c ≤ 'Z') || ('0' ≤ c && c ≤ '9') || c = '_'

/-- `role.toLowerCase()` (all roles are ASCII `\w+` runs). -/
def lowerChars (s : List Char) : List Char := s.map Char.toLower

/-- `line.match(/^\s*-\s+(\w+)(?:\s+"([^"]*)")?/)`: `some (role, name?)` when
the line is a candidate node line. -/
def parseCandidate (line : List Char) : Option (List Char × Option (List Char)) :=
  match line.dropWhile isJsSpace with
  | [] => none
  | c :: rest =>
    if c = '-' then
      let sp := rest.takeWhile isJsSpace
      if sp = [] then none
      else
        let afterSp := rest.dropWhile isJsSpace
        let role := afterSp.takeWhile isWordChar
        if role = [] then none
        else
          let afterRole := afterSp.dropWhile isWordChar
          let nameOpt :=
            if afterRole.takeWhile isJsSpace = [] then none
            else
              match afterRole.dropWhile isJsSpace with
              | '"' :: afterQuote =>
                let name := afterQuote.takeWhile (fun ch => ¬ ch = '"')
                match afterQuote.dropWhile (fun ch => ¬ ch = '"') with
                | '"' :: _ => some name
                | _ => none
              | _ => none
          some (role, nameOpt)
    else none

/-- `pat` occurs as a contiguous substring of `hay`. -/
def containsSub (hay pat : List Char) : Bool :=
  match hay with
  | [] => pat.isEmpty
  | _ :: t => pat.isPrefixOf hay || containsSub t pat

/-- `SKIP_PATTERNS.some((p) => p.test(name))` with
`SKIP_PATTERNS = [/date/i, /calendar/i, /picker/i, /datepicker/i]`
(tab.ts line 27): case-insensitive substring tests. -/
def skipName (name : List Char) : Bool :=
  containsSub (lowerChars name) "date".data ||
  containsSub (lowerChars name) "calendar".data ||
  containsSub (lowerChars name) "picker".data ||
  containsSub (lowerChars name) "datepicker".data

/-- `INTERACTIVE_ROLES` (tab.ts lines 11-24); `combobox` deliberately absent. -/
def interactiveRoles : List (List Char) :=
  ["button".data, "link".data, "textbox".data, "checkbox".data, "radio".data,
   "menuitem".data, "tab".data, "searchbox".data, "slider".data,
   "spinbutton".data, "switch".data]

/-- `RefInfo` from `src/types.ts`: role (lower-cased), name, 0-based index
among equal `(role, name)` pairs. -/
structure RefInfo where
  role : List Char
  name : List Char
  nth : Nat
deriving DecidableEq, Repr

/-- One loop iteration's filter (tab.ts lines 254-263): parse the candidate,
skip `combobox`, skip matched skip-patterns (the code guards the pattern test
by `name` being truthy, which changes nothing: no pattern matches the empty
name), keep interactive roles; yields the lower-cased role and the name
(`name || ''`). -/
def acceptLine (line : List Char) : Option (List Char × List Char) :=
  match parseCandidate line with
  | none => none
  | some (role, nameOpt) =>
    let normalizedRole := lowerChars role
    if normalizedRole = "combobox".data then none
    else if (match nameOpt with
             | some n => ¬ n = [] && skipName n
             | none => false) then none
    else if normalizedRole ∈ interactiveRoles then
      some (normalizedRole, nameOpt.getD [])
    else none

/-- The same filter written from the specification's words: the lower-cased
role is in the fixed interactive set, is not `combobox`, and the name matches
none of the date/calendar/picker/datepicker patterns. -/
def claimAccept (line : List Char) : Option (List Char × List Char) :=
  match parseCandidate line with
  | none => none
  | some (role, nameOpt) =>
    let r := lowerChars role
    let n := nameOpt.getD []
    if r ∈ interactiveRoles ∧ ¬ r = "combobox".data ∧ skipName n = false then
      some (r, n)
    else none

/-- `yaml.split(sep)` (for a one-character separator). -/
def splitOnChar (sep : Char) : List Char → List (List Char)
  | [] => [[]]
  | c :: t =>
    if c = sep then [] :: splitOnChar sep t
    else
      match splitOnChar sep t with
      | [] => [[c]]
      | h :: r => (c :: h) :: r

/-- The extraction loop (tab.ts lines 248-272): `counter` is `refCounter`
(starting at 1, `break` once it exceeds 500) and `counts` is the `seenCounts`
map, modelled as its lookup-with-default-0 function. -/
def buildRefsGo : List (List Char) → Nat → ((List Char × List Char) → Nat) →
    List (List Char × RefInfo)
  | [], _, _ => []
  | line :: rest, counter, counts =>
    if 500 < counter then []
    else
      match acceptLine line with
      | none => buildRefsGo rest counter counts
      | some (r, n) =>
        let nth := counts (r, n)
        ('e' :: natChars counter, ⟨r, n, nth⟩) ::
          buildRefsGo rest (counter + 1)
            (fun k => if k = (r, n) then nth + 1 else counts k)

/-- `buildRefs` on a snapshot text: the ordered ref table
`refId ↦ RefInfo` (insertion order of the `Map`). -/
def buildRefs (ariaYaml : List Char) : List (List Char × RefInfo) :=
  buildRefsGo (splitOnChar '\n' ariaYaml) 1 (fun _ => 0)

/-- All accepted candidates of the snapshot, in line order, without the
500-node cap: the reference point for the claim's description. -/
def acceptedCandidates (ariaYaml : List Char) : List (List Char × List Char) :=
  (splitOnChar '\n' ariaYaml).filterMap acceptLine

/-- Number of occurrences of `p` in `l` (prior accepted nodes with the same
`(role, name)`). -/
def countPair (l : List (List Char × List Char)) (p : List Char × List Char) : Nat :=
  (l.filter (fun q => q = p)).length

/-! ### Session / tab registry — `src/services/session.ts`

State: `sessions : Map sessionKey → SessionData` where a `SessionData` holds
`tabGroups : Map groupKey → Map tabId → TabState`, and the reverse index
`tabSessionIndex : Map tabId → sessionKey`.  Tab state contents are
irrelevant to ownership, so a group is modelled as its list of tabIds.

Tab creation (`POST /tabs`, core.ts lines 268-285) stores the new tab under
session key `getSessionMapKey(userId) = String(userId)` in the group named by
the request's `sessionKey`, and calls `indexTab(tabId, sessionMapKey)`; the
`tabId` is a fresh UUID.  Tab closure (`DELETE /tabs/:tabId`, core.ts lines
734-753) looks the tab up with `findTabById`, deletes it from its group,
drops the group if it became empty, and calls `unindexTab(tabId)`.
Tab-count caps (`MAX_TABS_PER_SESSION`, `MAX_SESSIONS`) only restrict which
creations are accepted and cannot affect ownership, so they are not modelled.
`findTabById` also rewrites the reverse index (dropping a stale entry,
re-adding a missing one); these cache repairs never change the returned
value, and in states reachable by create/close the index is never stale, so
the model's `findTabById` is the pure lookup. -/

/-- Session record: `tabGroups` as `Map groupKey → [tabId]`. -/
structure SessionD where
  tabGroups : List (String × List String)
deriving DecidableEq, Repr

/-- Registry state: the `sessions` map and the `tabSessionIndex` reverse
index. -/
structure RegState where
  sessions : List (String × SessionD)
  index : List (String × String)
deriving DecidableEq, Repr

/-- Session-key ownership test used by `findTabById` (session.ts lines 181
and 195): the key equals the requesting user or extends it with `":"`. -/
def keyMatchesUser (k u : String) : Bool :=
  k = u || (u ++ ":").data.isPrefixOf k.data

/-- `findTab(session, tabId)` (session.ts lines 146-155): first group holding
the tab; `some groupKey` when found. -/
def findTabInGroups (gs : List (String × List String)) (t : String) : Option String :=
  match gs with
  | [] => none
  | (g, tabs) :: rest => if t ∈ tabs then some g else findTabInGroups rest t

/-- The fallback scan of `findTabById` (session.ts lines 194-201): first
session whose key matches the user and which holds the tab. -/
def scanSessions (sessions : List (String × SessionD)) (t u : String) :
    Option (String × String) :=
  match sessions with
  | [] => none
  | (k, sess) :: rest =>
    if keyMatchesUser k u then
      match findTabInGroups sess.tabGroups t with
      | some g => some (k, g)
      | none => scanSessions rest t u
    else scanSessions rest t u

/-- `findTabById(tabId, userId)` (session.ts lines 167-204), as the
`(sessionKey, groupKey)` of the returned hit: consult the reverse index; an
index entry owned by another user answers `none` outright; a hit in the
indexed session answers it; otherwise scan the user's sessions. -/
def findTabById (s : RegState) (t u : String) : Option (String × String) :=
  match alookup s.index t with
  | some indexedKey =>
    if keyMatchesUser indexedKey u then
      match alookup s.sessions indexedKey with
      | some sess =>
        match findTabInGroups sess.tabGroups t with
        | some g => some (indexedKey, g)
        | none => scanSessions s.sessions t u
      | none => scanSessions s.sessions t u
    else none
  | none => scanSessions s.sessions t u

/-- Whether any session's any group holds `t` (freshness of a new UUID). -/
def tabKnown (s : RegState) (t : String) : Bool :=
  s.sessions.any (fun ks => ks.2.tabGroups.any (fun gt => t ∈ gt.2))

/-- Registry operations: `create u g t` is `POST /tabs` by user `u` with
request sessionKey `g` drawing fresh tabId `t`; `close u t` is
`DELETE /tabs/:tabId`. -/
inductive RegOp where
  | create (u g t : String)
  | close (u t : String)
deriving DecidableEq, Repr

/-- One operation.  `create`: ensure the session at key `String(u)` exists
(`getSession`), ensure the group (`getTabGroup`), add the tab
(`group.set(tabId, tabState)`) and index it (`indexTab(tabId, sessionMapKey)`);
a non-fresh tabId cannot occur (UUID) and is ignored.  `close`: as the DELETE
handler — on a `findTabById` hit, remove the tab from the found group, drop
the group when empty, and `unindexTab`. -/
def applyRegOp (s : RegState) : RegOp → RegState
  | .create u g t =>
    if tabKnown s t then s
    else
      let sess := (alookup s.sessions u).getD ⟨[]⟩
      let tabs := (alookup sess.tabGroups g).getD []
      let sess' : SessionD := ⟨aset sess.tabGroups g (tabs ++ [t])⟩
      ⟨aset s.sessions u sess', aset s.index t u⟩
  | .close u t =>
    match findTabById s t u with
    | none => s
    | some (k, g) =>
      match alookup s.sessions k with
      | none => s
      | some sess =>
        let tabs := (alookup sess.tabGroups g).getD []
        let tabs' := tabs.erase t
        let groups' :=
          if tabs' = [] then aremove sess.tabGroups g
          else aset sess.tabGroups g tabs'
        ⟨aset s.sessions k ⟨groups'⟩, aremove s.index t⟩

/-- Registry state after a sequence of operations, from the empty state. -/
def runReg (ops : List RegOp) : RegState :=
  ops.foldl applyRegOp ⟨[], []⟩

/-- All `(tabId, sessionKey, groupKey)` triples of the registry. -/
def flatTabs (s : RegState) : List (String × String × String) :=
  s.sessions.flatMap (fun ks =>
    ks.2.tabGroups.flatMap (fun gt => gt.2.map (fun t => (t, ks.1, gt.1))))

/-- The session key owning tab `t` (tabs live in exactly one session; the
session key equals the creating user's id). -/
def ownerOf (s : RegState) (t : String) : Option String :=
  ((flatTabs s).find? (fun p => p.1 = t)).map (fun p => p.2.1)

/-! ### Download registry — `src/src/services/` download module,
`upsertDownload` / `deleteDownloadEntry`

The in-memory `downloads : Map downloadId → DownloadInfo` is modelled as the
list of its values in insertion order (ids are unique).  `deleteDownloadEntry`
unlinks the entry's file before removing the entry; the unlink is recorded in
an `unlinked` audit list. -/

/-- `DownloadInfo.status`. -/
inductive DStatus where
  | pending
  | completed
  | failed
  | canceled
deriving DecidableEq, Repr

/-- The fields of `DownloadInfo` that the cap/eviction logic reads. -/
structure DInfo where
  id : String
  userId : String
  status : DStatus
  createdAt : Nat
  completedAt : Option Nat
  savedFilename : String
deriving DecidableEq, Repr

/-- Registry plus the files unlinked so far (in deletion order). -/
structure DReg where
  entries : List DInfo
  unlinked : List (String × String)
deriving DecidableEq, Repr

/-- The sort key `Number(d.completedAt ?? d.createdAt ?? 0)` (upsertDownload). -/
def evictKey (d : DInfo) : Nat := d.completedAt.getD d.createdAt

/-- `evictable.sort((a, b) => at - bt)[0]`: the sort is stable, so this is
the first entry attaining the minimal key. -/
def selectOldest : List DInfo → Option DInfo
  | [] => none
  | d :: rest =>
    match selectOldest rest with
    | none => some d
    | some b => if evictKey d ≤ evictKey b then some d else some b

/-- `deleteDownloadEntry(id, info)`: unlink the file (recorded in `unlinked`),
then `downloads.delete(id)`. -/
def deleteDownloadEntry (reg : DReg) (victim : DInfo) : DReg :=
  ⟨reg.entries.filter (fun e => ¬ e.id = victim.id),
   reg.unlinked ++ [(victim.userId, victim.savedFilename)]⟩

/-- `Map.set` keyed by `id`: replace in place or append. -/
def dsetById : List DInfo → DInfo → List DInfo
  | [], info => [info]
  | d :: rest, info =>
    if d.id = info.id then info :: rest else d :: dsetById rest info

/-- Entries belonging to `uid`, in registry order. -/
def userEntries (reg : DReg) (uid : String) : List DInfo :=
  reg.entries.filter (fun d => d.userId = uid)

/-- `upsertDownload(info)` with per-user cap `cap` (the code computes
`cap = Math.max(1, Number(CONFIG.maxDownloadsPerUser) || 500)`): for a new
id, if the user already holds `≥ cap` entries, evict the oldest non-pending
entry (if any) with its file, then `downloads.set(id, info)`. -/
def upsertDownload (cap : Nat) (reg : DReg) (info : DInfo) : DReg :=
  let isNew := reg.entries.all (fun d => ¬ d.id = info.id)
  let reg1 :=
    if isNew then
      let ue := userEntries reg info.userId
      if cap ≤ ue.length then
        let evictable := ue.filter (fun d => ¬ d.status = DStatus.pending)
        match selectOldest evictable with
        | some oldest => deleteDownloadEntry reg oldest
        | none => reg
      else reg
    else reg
  ⟨dsetById reg1.entries info, reg1.unlinked⟩

/-- Per-user entry count. -/
def userCount (reg : DReg) (uid : String) : Nat := (userEntries reg uid).length

/-! ### Script evaluation — `src/services/tab.ts`, `evaluateTab`

`page.evaluate` is an opaque engine capability; a call is abstracted by how
long the engine takes to settle (`engineDuration`, in ms) and what it settles
with (a JS value or a rejection message).  `Promise.race([evaluate, timer])`
is won by the timer exactly when the engine takes longer than the clamped
timeout (a tie goes to the evaluation, which was queued first — immaterial to
every claim).  JS values are modelled by `JSValue`; `JSON.stringify` and
`typeof` are modelled on it (numbers as integers — the serialized text of a
number only ever feeds a length comparison). -/

/-- A JavaScript value as `page.evaluate` can deliver it. -/
inductive JSValue where
  | undef
  | jnull
  | jbool (b : Bool)
  | jnum (n : Int)
  | jstr (s : List Char)
  | jarr (elems : List JSValue)
  | jobj (fields : List (List Char × JSValue))
  | jfunc

/-- `typeof value`. -/
def typeofJS : JSValue → String
  | .undef => "undefined"
  | .jnull => "object"
  | .jbool _ => "boolean"
  | .jnum _ => "number"
  | .jstr _ => "string"
  | .jarr _ => "object"
  | .jobj _ => "object"
  | .jfunc => "function"

/-- `Array.isArray(value)`. -/
def isJsArray : JSValue → Bool
  | .jarr _ => true
  | _ => false

/-- `result === null ? 'null' : Array.isArray(result) ? 'array' :
typeof result` (tab.ts line 577). -/
def jsResultType : JSValue → String
  | .jnull => "null"
  | .jarr _ => "array"
  | v => typeofJS v

mutual

/-- `JSON.stringify(v)` at the top level: `none` models `undefined` (for
`undefined` and functions); otherwise the serialized text. -/
def jsonStringify : JSValue → Option (List Char)
  | .undef => none
  | .jfunc => none
  | .jnull => some "null".data
  | .jbool true => some "true".data
  | .jbool false => some "false".data
  | .jnum n => some (toString n).data
  | .jstr s => some ('"' :: s ++ ['"'])
  | .jarr elems => some ('[' :: jsonStringifyArr elems ++ [']'])
  | .jobj fields => some ('{' :: jsonStringifyObj fields ++ ['}'])

/-- Array elements: unserializable elements become `null`. -/
def jsonStringifyArr : List JSValue → List Char
  | [] => []
  | [v] => (jsonStringify v).getD "null".data
  | v :: rest => (jsonStringify v).getD "null".data ++ ',' :: jsonStringifyArr rest

/-- Object fields: unserializable values are omitted. -/
def jsonStringifyObj : List (List Char × JSValue) → List Char
  | [] => []
  | (k, v) :: rest =>
    match jsonStringify v with
    | none => jsonStringifyObj rest
    | some sv =>
      let field := '"' :: k ++ '"' :: ':' :: sv
      match jsonStringifyObj rest with
      | [] => field
      | restS => field ++ ',' :: restS

end

/-- The outcome the engine settles `page.evaluate(expression)` with. -/
inductive EvalOutcome where
  | value (v : JSValue)
  | errorMsg (m : String)

/-- Shape of `EvaluateResult` (`src/types.ts`): `success result resultType
truncated` for the `ok: true` records, `failure error errorType` for the
`ok: false` records. -/
inductive EvalResult where
  | success (result : JSValue) (resultType : String) (truncated : Bool)
  | failure (error : String) (errorType : String)

/-- `MAX_EVAL_TIMEOUT` (tab.ts line 31). -/
def maxEvalTimeout : Int := 30000

/-- `DEFAULT_EVAL_TIMEOUT` (tab.ts line 32). -/
def defaultEvalTimeout : Int := 5000

/-- `MAX_RESULT_SIZE` — 1 MB (tab.ts line 33). -/
def maxResultSize : Nat := 1048576

/-- `Math.min(Math.max(params.timeout ?? DEFAULT_EVAL_TIMEOUT, 100),
MAX_EVAL_TIMEOUT)` (tab.ts line 544). -/
def clampEvalTimeout (requested : Option Int) : Int :=
  min (max (requested.getD defaultEvalTimeout) 100) maxEvalTimeout

/-- The timeout error message built at tab.ts line 585. -/
def timeoutMessage (t : Int) : String :=
  "Evaluation timed out after " ++ toString t ++ "ms"

/-- The truncation placeholder built at tab.ts line 568. -/
def truncatedPlaceholder (size : Nat) : List Char :=
  ("[Truncated: result was " ++ toString size ++ " bytes, max "
    ++ toString maxResultSize ++ "]").data

/-- `evaluateTab` (tab.ts lines 537-598), for an engine call that settles
after `engineDuration` ms with `engineOutcome`.  The timer wins the race when
the engine outlasts the clamped timeout; the `EVAL_TIMEOUT` sentinel thrown
by the timer is recognized by message equality in the catch. -/
def evaluateTab (requested : Option Int) (engineDuration : Nat)
    (engineOutcome : EvalOutcome) : EvalResult :=
  let timeout := clampEvalTimeout requested
  if timeout < (engineDuration : Int) then
    .failure (timeoutMessage timeout) "timeout"
  else
    match engineOutcome with
    | .errorMsg m =>
      if m = "EVAL_TIMEOUT" then .failure (timeoutMessage timeout) "timeout"
      else .failure m "js_error"
    | .value v =>
      match jsonStringify v with
      | none => .success v (typeofJS v) false
      | some serialized =>
        if maxResultSize < serialized.length then
          .success (.jstr (truncatedPlaceholder serialized.length)) "string" true
        else
          .success v (jsResultType v) false

/-! ### Fixed-window rate limiter — `src/src/middleware/rate-limit.ts` -/

/-- `RateLimitEntry`. -/
structure RLEntry where
  count : Nat
  resetAt : Int
deriving DecidableEq, Repr

/-- `checkRateLimit(userId, maxRequests, windowMs)` at wall-clock `now`,
acting on the `rateLimitStore` map (lines 18-38): returns the updated store,
the `allowed` flag and `retryAfterMs`. -/
def checkRateLimit (store : List (String × RLEntry)) (userId : String)
    (maxRequests : Nat) (windowMs now : Int) :
    List (String × RLEntry) × Bool × Option Int :=
  match alookup store userId with
  | none => (aset store userId ⟨1, now + windowMs⟩, true, none)
  | some entry =>
    if entry.resetAt ≤ now then
      (aset store userId ⟨1, now + windowMs⟩, true, none)
    else if entry.count < maxRequests then
      (aset store userId ⟨entry.count + 1, entry.resetAt⟩, true, none)
    else
      (store, false, some (entry.resetAt - now))

/-! ### User-id keying — `withUserLimit` vs the other per-user maps -/

/-- Lean's character lowercasing, which on the ASCII range agrees with JS
`String.prototype.toLowerCase`. -/
def jsToLower (s : String) : String := String.mk (s.data.map Char.toLower)

/-- JS `String.prototype.trim`: strip leading and trailing whitespace. -/
def jsTrim (s : String) : String :=
  String.mk (((s.data.dropWhile isJsSpace).reverse.dropWhile isJsSpace).reverse)

/-- The bucket key of `withUserLimit`:
`String(userId).toLowerCase().trim()` (session.ts line 38). -/
def userLimitKey (u : String) : String := jsTrim (jsToLower u)

/-- `userConcurrency.get(key)` as `withUserLimit` performs it (session.ts
lines 38-39); the bucket payload is abstract. -/
def userConcurrencyGet {α : Type} (m : List (String × α)) (u : String) : Option α :=
  alookup m (userLimitKey u)

/-- `rateLimitStore.get(userId)` (rate-limit.ts line 24): raw key. -/
def rateLimitGet (m : List (String × RLEntry)) (u : String) : Option RLEntry :=
  alookup m u

/-- `normalizeUserId` / `getSessionMapKey` (session.ts lines 104-112):
`String(userId)`, no normalization. -/
def sessionMapKey (u : String) : String := u

/-- Download entries are matched by raw `String(info.userId)` equality
(`matchFilters`, `getDownload`). -/
def downloadUserKey (u : String) : String := u

/-! ### Event-loop interpreter for `withTabLock` — `src/services/tab.ts`
lines 35-59

Calls on one `tabId` are numbered `0, 1, 2, …`; call `i`'s `operation()`
promise is promise `i`.  Each macrotask (an HTTP arrival `submit i`, or the
engine settling operation `i`, `opResolve i`) runs to completion and then the
microtask queue drains — exactly Node's event loop.  A call's body runs as:

* on `submit` (the synchronous prologue of `withTabLock` up to its first
  `await`): read `tabLocks.get(tabId)`; if a promise is stored, await it
  (continuation `afterWait i`); otherwise proceed directly;
* proceeding (`tlStartOp`): invoke `operation()` — the operation starts —
  store its promise in `tabLocks`, and await it (continuation `afterOwn i`);
* `afterOwn i` (the `finally`): delete the stored promise only if it is
  still call `i`'s own.

The interesting observable is the log of operation starts and settlements:
an operation is executing between its `start` and `finish` entries. -/

/-- Observable log entry: operation `i` started / settled. -/
inductive OpEvent where
  | start (i : Nat)
  | finish (i : Nat)
deriving DecidableEq, Repr

/-- Peak number of simultaneously executing operations along the log. -/
def concSteps : List OpEvent → Nat → Nat → Nat
  | [], _, best => best
  | .start _ :: t, cur, best => concSteps t (cur + 1) (max best (cur + 1))
  | .finish _ :: t, cur, best => concSteps t (cur - 1) best

/-- Peak concurrency of a log. -/
def maxConcurrent (log : List OpEvent) : Nat := concSteps log 0 0

/-- A suspended continuation of some `withTabLock` call. -/
inductive TLCont where
  | afterWait (i : Nat)
  | afterOwn (i : Nat)
deriving DecidableEq, Repr

/-- A promise: settled or not, and the continuations attached to it (in
attach order, as `Promise` reactions run). -/
structure TLPromise where
  resolved : Bool
  subs : List TLCont
deriving DecidableEq, Repr

/-- Interpreter state for one `tabId`'s lock. -/
structure TLState where
  lock : Option Nat
  promises : List (Nat × TLPromise)
  log : List OpEvent
  micro : List TLCont
deriving DecidableEq, Repr

/-- `await p` by continuation `c`: attach to a pending promise, or queue the
continuation at once on a settled one. -/
def tlSubscribe (s : TLState) (p : Nat) (c : TLCont) : TLState :=
  match alookup s.promises p with
  | none => s
  | some pr =>
    if pr.resolved then { s with micro := s.micro ++ [c] }
    else { s with promises := aset s.promises p ⟨false, pr.subs ++ [c]⟩ }

/-- `const promise = operation(); tabLocks.set(tabId, promise);
… await promise` (tab.ts lines 49-53): the operation starts executing,
its promise is stored as the current one, and the call awaits it. -/
def tlStartOp (s : TLState) (i : Nat) : TLState :=
  let s1 : TLState :=
    { s with promises := aset s.promises i ⟨false, []⟩,
             log := s.log ++ [OpEvent.start i],
             lock := some i }
  tlSubscribe s1 i (.afterOwn i)

/-- Resume a suspended continuation. -/
def tlRunCont (s : TLState) : TLCont → TLState
  | .afterWait i => tlStartOp s i
  | .afterOwn i =>
    if s.lock = some i then { s with lock := none } else s

/-- Drain the microtask queue (fuel-bounded; the supplied fuel always
suffices for the schedules considered). -/
def tlDrain : Nat → TLState → TLState
  | 0, s => s
  | fuel + 1, s =>
    match s.micro with
    | [] => s
    | c :: rest => tlDrain fuel (tlRunCont { s with micro := rest } c)

/-- External events: a new `withTabLock(tabId, op_i)` call arrives, or the
engine settles operation `i`. -/
inductive TLExt where
  | submit (i : Nat)
  | opResolve (i : Nat)
deriving DecidableEq, Repr

/-- One macrotask.  `submit i` is the prologue of `withTabLock` (tab.ts
lines 40-47): `pending = tabLocks.get(tabId)`; if present, await it, else
start at once.  `opResolve i` settles promise `i`: its reactions are queued
in attach order. -/
def tlMacro (s : TLState) : TLExt → TLState
  | .submit i =>
    match s.lock with
    | some j => tlSubscribe s j (.afterWait i)
    | none => tlStartOp s i
  | .opResolve i =>
    match alookup s.promises i with
    | none => s
    | some pr =>
      { s with promises := aset s.promises i ⟨true, []⟩,
               log := s.log ++ [OpEvent.finish i],
               micro := s.micro ++ pr.subs }

/-- Run a schedule of macrotasks, draining microtasks after each. -/
def tlRun (events : List TLExt) : TLState :=
  events.foldl (fun s e => tlDrain 16 (tlMacro s e)) ⟨none, [], [], []⟩

/-! ### Event-loop interpreter for `withUserLimit` — `src/services/session.ts`
lines 33-73

Same interpreter style, for calls of one user key with limit `maxC`.  The
`userConcurrency` map entry for the key is `mapB`; bucket *objects* live in
`store` under identity numbers, because a closure resumed from the queue
mutates the object captured at submission time — which may no longer be the
object the map holds.  The queued 30-second timers never fire within the
schedules considered, so they are not modelled. -/

/-- A `{active, queue}` bucket; the queue holds waiting call ids in arrival
order. -/
structure ULBucket where
  active : Nat
  queue : List Nat
deriving DecidableEq, Repr

/-- Suspended continuations: `grant i b` is waiter `i` resumed by `next()`
with its captured bucket object `b`; `afterDone i b` is call `i`'s `finally`. -/
inductive ULCont where
  | grant (i b : Nat)
  | afterDone (i b : Nat)
deriving DecidableEq, Repr

/-- Interpreter state for one user key. -/
structure ULState where
  store : List (Nat × ULBucket)
  mapB : Option Nat
  nextObj : Nat
  runningB : List (Nat × Nat)
  log : List OpEvent
  micro : List ULCont
deriving DecidableEq, Repr

/-- `state.active++` followed by `operation()` (session.ts lines 60-62), on
the bucket *object* `b` the call captured. -/
def ulStartOp (s : ULState) (i b : Nat) : ULState :=
  match alookup s.store b with
  | none => s
  | some bk =>
    { s with store := aset s.store b ⟨bk.active + 1, bk.queue⟩,
             runningB := aset s.runningB i b,
             log := s.log ++ [OpEvent.start i] }

/-- The prologue of `withUserLimit` (session.ts lines 38-58): get or create
the bucket for the key; if `active ≥ maxConcurrent`, append the resume
callback to `queue` and suspend, else increment and run. -/
def ulSubmit (s : ULState) (maxC i : Nat) : ULState :=
  let sb : ULState × Nat :=
    match s.mapB with
    | some b => (s, b)
    | none =>
      ({ s with store := aset s.store s.nextObj ⟨0, []⟩,
                mapB := some s.nextObj,
                nextObj := s.nextObj + 1 }, s.nextObj)
  match alookup sb.1.store sb.2 with
  | none => sb.1
  | some bk =>
    if maxC ≤ bk.active then
      { sb.1 with store := aset sb.1.store sb.2 ⟨bk.active, bk.queue ++ [i]⟩ }
    else ulStartOp sb.1 i sb.2

/-- Operation `i` settles (macrotask): log it and queue the call's `finally`
continuation. -/
def ulComplete (s : ULState) (i : Nat) : ULState :=
  match alookup s.runningB i with
  | none => s
  | some b =>
    { s with log := s.log ++ [OpEvent.finish i],
             micro := s.micro ++ [ULCont.afterDone i b] }

/-- Resume a suspended continuation.  `afterDone` is the `finally` (session.ts
lines 63-72): `active--`; shift and resume the oldest waiter if any (its
resolution queues `grant` as a microtask); delete the map entry for the key
when the bucket object reads `active == 0 && queue.length == 0`. -/
def ulRunCont (s : ULState) : ULCont → ULState
  | .grant i b => ulStartOp s i b
  | .afterDone i b =>
    match alookup s.store b with
    | none => s
    | some bk =>
      let active1 := bk.active - 1
      let step : List Nat × List ULCont :=
        match bk.queue with
        | [] => ([], s.micro)
        | j :: qrest => (qrest, s.micro ++ [ULCont.grant j b])
      let s1 : ULState :=
        { s with store := aset s.store b ⟨active1, step.1⟩,
                 runningB := aremove s.runningB i,
                 micro := step.2 }
      if active1 = 0 ∧ step.1 = [] then { s1 with mapB := none } else s1

/-- Drain the microtask queue. -/
def ulDrain : Nat → ULState → ULState
  | 0, s => s
  | fuel + 1, s =>
    match s.micro with
    | [] => s
    | c :: rest => ulDrain fuel (ulRunCont { s with micro := rest } c)

/-- External events for the limiter interpreter. -/
inductive ULExt where
  | submit (i : Nat)
  | complete (i : Nat)
deriving DecidableEq, Repr

/-- One macrotask, then drain. -/
def ulMacro (s : ULState) (maxC : Nat) : ULExt → ULState
  | .submit i => ulSubmit s maxC i
  | .complete i => ulComplete s i

/-- Run a schedule of macrotasks for limit `maxC`. -/
def ulRun (maxC : Nat) (events : List ULExt) : ULState :=
  events.foldl (fun s e => ulDrain 16 (ulMacro s maxC e)) ⟨[], none, 0, [], [], []⟩

/-! ### Specification-side companions used by the theorems -/

/-- The marker `windowSnapshot` emits for these arguments (recomputed from the
same quantities, so the length bound can name "the marker size"). -/
def snapshotMarker (y : List Char) (offset : Int) (maxChars tailChars : Nat) :
    List Char :=
  if y.length ≤ maxChars then []
  else
    let safeTailChars := min tailChars y.length
    let contentBudget := max 100 (max 1 maxChars - safeTailChars - 200)
    let clampedOffset := min (max 0 offset).toNat (y.length - safeTailChars)
    let chunkEnd := clampedOffset + contentBudget
    if chunkEnd < y.length - safeTailChars then markerChars chunkEnd y.length
    else ['\n']

/-- The reference numbering of the claim about ref extraction: `P` is the list
of already-accepted `(role, name)` pairs, the remaining accepted candidates
are numbered `P.length + 1, P.length + 2, …` with `nth` the number of equal
pairs accepted before, stopping once 500 nodes are accepted. -/
def specGo (P : List (List Char × List Char)) :
    List (List Char × List Char) → List (List Char × RefInfo)
  | [] => []
  | a :: t =>
    if 500 < P.length + 1 then []
    else
      ('e' :: natChars (P.length + 1), ⟨a.1, a.2, countPair P a⟩) ::
        specGo (P ++ [a]) t

/-- Default element for positional access into a ref table. -/
def refDefault : List Char × RefInfo := ([], ⟨[], [], 0⟩)

/-- Default element for positional access into a candidate list. -/
def candDefault : List Char × List Char := ([], [])

/-- Invariant of the rate-limit store at wall-clock `now`: every live entry
was created by the code, so it holds between 1 and `maxRequests` counted
requests and its reset time is at most one window away. -/
def RLInv (store : List (String × RLEntry)) (maxRequests : Nat)
    (windowMs now : Int) : Prop :=
  ∀ p ∈ store, 1 ≤ p.2.count ∧ p.2.count ≤ maxRequests ∧
    p.2.resetAt ≤ now + windowMs

/-- `evaluateTab` as the specification describes it (with the one amendment
the code forces: an engine error whose message equals the internal sentinel
`EVAL_TIMEOUT` is classified as a timeout).  The effective timeout is the
requested one clamped to `[100, 30000]`; if the engine outlasts it the result
is a timeout failure; an engine error is a `js_error` failure unless it
carries the sentinel message; on success, a value whose JSON serialization is
`undefined` is returned raw with `resultType = typeof value`, a serialization
above 1 MB is replaced by the placeholder string with `truncated`, and
otherwise the value is returned with `resultType` being `null`/`array`/its
`typeof`. -/
def evaluateSpecified (requested : Option Int) (engineDuration : Nat)
    (engineOutcome : EvalOutcome) : EvalResult :=
  let timeout := min (max (requested.getD 5000) 100) 30000
  if (engineDuration : Int) ≤ timeout then
    match engineOutcome with
    | .errorMsg m =>
      if m = "EVAL_TIMEOUT" then .failure (timeoutMessage timeout) "timeout"
      else .failure m "js_error"
    | .value v =>
      match jsonStringify v with
      | none => .success v (typeofJS v) false
      | some serialized =>
        if maxResultSize < serialized.length then
          .success (.jstr (truncatedPlaceholder serialized.length)) "string" true
        else .success v (jsResultType v) false
  else .failure (timeoutMessage timeout) "timeout"

/-- Well-formedness of a registry state, maintained by the registry
operations: the `sessions` and `tabSessionIndex` maps hold each key once, a
session holds each group key once, a group holds each tab once, a live tabId
determines its `(sessionKey, groupKey)` uniquely, and the reverse index
contains exactly the live tabIds, each mapped to its owning session key. -/
def RegWF (s : RegState) : Prop :=
  (s.sessions.map Prod.fst).Nodup ∧
  (∀ ks ∈ s.sessions, (ks.2.tabGroups.map Prod.fst).Nodup) ∧
  (∀ ks ∈ s.sessions, ∀ gt ∈ ks.2.tabGroups, gt.2.Nodup) ∧
  (∀ p ∈ flatTabs s, ∀ q ∈ flatTabs s, p.1 = q.1 → p = q) ∧
  (s.index.map Prod.fst).Nodup ∧
  (∀ t k, alookup s.index t = some k ↔ ∃ g, (t, k, g) ∈ flatTabs s)

/-! ## Theorems -/

/-! ### Shared association-list lemmas -/

theorem alookup_aset_self {κ α : Type} [DecidableEq κ] (m : List (κ × α)) (k : κ) (v : α) :
    alookup (aset m k v) k = some v := by
  induction m with
  | nil => simp [aset, alookup]
  | cons p t ih =>
    obtain ⟨k0, v0⟩ := p
    by_cases h : k0 = k
    · simp [aset, alookup, h]
    · simp [aset, alookup, h, ih]

theorem mem_aset {κ α : Type} [DecidableEq κ] (m : List (κ × α)) (k : κ) (v : α)
    (p : κ × α) (hp : p ∈ aset m k v) : p = (k, v) ∨ p ∈ m := by
  induction m with
  | nil => simpa [aset] using hp
  | cons q t ih =>
    obtain ⟨k0, v0⟩ := q
    by_cases h : k0 = k
    · rw [show aset ((k0, v0) :: t) k v = (k, v) :: t by simp [aset, h]] at hp
      rcases List.mem_cons.mp hp with h1 | h1
      · exact Or.inl h1
      · exact Or.inr (List.mem_cons_of_mem _ h1)
    · rw [show aset ((k0, v0) :: t) k v = (k0, v0) :: aset t k v by simp [aset, h]] at hp
      rcases List.mem_cons.mp hp with h1 | h1
      · exact Or.inr (by simp [h1])
      · rcases ih h1 with h2 | h2
        · exact Or.inl h2
        · exact Or.inr (List.mem_cons_of_mem _ h2)

theorem alookup_mem {κ α : Type} [DecidableEq κ] (m : List (κ × α)) (k : κ) (v : α)
    (h : alookup m k = some v) : (k, v) ∈ m := by
  induction m with
  | nil => cases h
  | cons p t ih =>
    obtain ⟨k0, v0⟩ := p
    by_cases hk : k0 = k
    · rw [alookup, if_pos hk] at h
      cases h
      exact hk ▸ List.mem_cons_self _ _
    · rw [alookup, if_neg hk] at h
      exact List.mem_cons_of_mem _ (ih h)

theorem alookup_aset_ne {κ α : Type} [DecidableEq κ] (m : List (κ × α)) (k : κ)
    (v : α) (k' : κ) (h : ¬ k = k') : alookup (aset m k v) k' = alookup m k' := by
  induction m with
  | nil => simp [aset, alookup, h]
  | cons p t ih =>
    obtain ⟨k0, v0⟩ := p
    by_cases hk : k0 = k
    · subst hk
      simp [aset, alookup, h]
    · simp only [aset, if_neg hk, alookup]
      by_cases hk' : k0 = k'
      · simp [hk']
      · simp [hk', ih]

theorem self_mem_aset {κ α : Type} [DecidableEq κ] (m : List (κ × α)) (k : κ)
    (v : α) : (k, v) ∈ aset m k v := by
  induction m with
  | nil => simp [aset]
  | cons p t ih =>
    obtain ⟨k0, v0⟩ := p
    by_cases hk : k0 = k
    · simp [aset, hk]
    · simp only [aset, if_neg hk]
      exact List.mem_cons_of_mem _ ih

theorem mem_aset_of_ne {κ α : Type} [DecidableEq κ] (m : List (κ × α)) (k : κ)
    (v : α) (x : κ × α) (hx : x ∈ m) (hne : ¬ x.1 = k) : x ∈ aset m k v := by
  induction m with
  | nil => cases hx
  | cons p t ih =>
    obtain ⟨k0, v0⟩ := p
    by_cases hk : k0 = k
    · simp only [aset, if_pos hk]
      rcases List.mem_cons.mp hx with h1 | h1
      · exact absurd (by rw [h1]; exact hk) hne
      · exact List.mem_cons_of_mem _ h1
    · simp only [aset, if_neg hk]
      rcases List.mem_cons.mp hx with h1 | h1
      · exact h1 ▸ List.mem_cons_self _ _
      · exact List.mem_cons_of_mem _ (ih h1)

theorem mem_aset_iff {κ α : Type} [DecidableEq κ] (m : List (κ × α)) (k : κ)
    (v : α) (x : κ × α) (hnd : (m.map Prod.fst).Nodup) :
    x ∈ aset m k v ↔ x = (k, v) ∨ (x ∈ m ∧ ¬ x.1 = k) := by
  induction m with
  | nil => simp [aset]
  | cons p t ih =>
    obtain ⟨k0, v0⟩ := p
    simp only [List.map_cons, List.nodup_cons] at hnd
    by_cases hk : k0 = k
    · subst hk
      simp only [aset, if_pos rfl]
      constructor
      · intro hx
        rcases List.mem_cons.mp hx with h1 | h1
        · exact Or.inl h1
        · refine Or.inr ⟨List.mem_cons_of_mem _ h1, ?_⟩
          intro hxk
          exact hnd.1 (hxk ▸ List.mem_map_of_mem Prod.fst h1)
      · rintro (h1 | ⟨h1, h2⟩)
        · exact h1 ▸ List.mem_cons_self _ _
        · rcases List.mem_cons.mp h1 with h3 | h3
          · exact absurd (by rw [h3]) h2
          · exact List.mem_cons_of_mem _ h3
    · simp only [aset, if_neg hk]
      constructor
      · intro hx
        rcases List.mem_cons.mp hx with h1 | h1
        · refine Or.inr ⟨h1 ▸ List.mem_cons_self _ _, ?_⟩
          rw [h1]
          exact hk
        · rcases (ih hnd.2).mp h1 with h2 | h2
          · exact Or.inl h2
          · exact Or.inr ⟨List.mem_cons_of_mem _ h2.1, h2.2⟩
      · rintro (h1 | ⟨h1, h2⟩)
        · exact List.mem_cons_of_mem _ ((ih hnd.2).mpr (Or.inl h1))
        · rcases List.mem_cons.mp h1 with h3 | h3
          · exact h3 ▸ List.mem_cons_self _ _
          · exact List.mem_cons_of_mem _ ((ih hnd.2).mpr (Or.inr ⟨h3, h2⟩))

theorem nodup_keys_aset {κ α : Type} [DecidableEq κ] (m : List (κ × α)) (k : κ)
    (v : α) (hnd : (m.map Prod.fst).Nodup) :
    ((aset m k v).map Prod.fst).Nodup := by
  induction m with
  | nil => simp [aset]
  | cons p t ih =>
    obtain ⟨k0, v0⟩ := p
    simp only [List.map_cons, List.nodup_cons] at hnd
    by_cases hk : k0 = k
    · simp only [aset, if_pos hk, List.map_cons, List.nodup_cons]
      subst hk
      exact hnd
    · simp only [aset, if_neg hk, List.map_cons, List.nodup_cons]
      refine ⟨?_, ih hnd.2⟩
      intro hmem
      rcases List.mem_map.mp hmem with ⟨x, hx, hfst⟩
      rcases mem_aset _ _ _ _ hx with h1 | h1
      · rw [h1] at hfst
        exact hk hfst.symm
      · exact hnd.1 (hfst ▸ List.mem_map_of_mem Prod.fst h1)

theorem aremove_sublist {κ α : Type} [DecidableEq κ] (m : List (κ × α)) (k : κ) :
    (aremove m k).Sublist m := by
  induction m with
  | nil => simp [aremove]
  | cons p t ih =>
    obtain ⟨k0, v0⟩ := p
    by_cases hk : k0 = k
    · simp only [aremove, if_pos hk]
      exact List.sublist_cons_self _ _
    · simp only [aremove, if_neg hk]
      exact ih.cons₂ _

theorem mem_aremove_iff {κ α : Type} [DecidableEq κ] (m : List (κ × α)) (k : κ)
    (x : κ × α) (hnd : (m.map Prod.fst).Nodup) :
    x ∈ aremove m k ↔ x ∈ m ∧ ¬ x.1 = k := by
  induction m with
  | nil => simp [aremove]
  | cons p t ih =>
    obtain ⟨k0, v0⟩ := p
    simp only [List.map_cons, List.nodup_cons] at hnd
    by_cases hk : k0 = k
    · subst hk
      simp only [aremove, if_pos rfl]
      constructor
      · intro hx
        refine ⟨List.mem_cons_of_mem _ hx, ?_⟩
        intro hxk
        exact hnd.1 (hxk ▸ List.mem_map_of_mem Prod.fst hx)
      · rintro ⟨h1, h2⟩
        rcases List.mem_cons.mp h1 with h3 | h3
        · exact absurd (by rw [h3]) h2
        · exact h3
    · simp only [aremove, if_neg hk]
      constructor
      · intro hx
        rcases List.mem_cons.mp hx with h1 | h1
        · refine ⟨h1 ▸ List.mem_cons_self _ _, ?_⟩
          rw [h1]
          exact hk
        · exact ⟨List.mem_cons_of_mem _ ((ih hnd.2).mp h1).1, ((ih hnd.2).mp h1).2⟩
      · rintro ⟨h1, h2⟩
        rcases List.mem_cons.mp h1 with h3 | h3
        · exact h3 ▸ List.mem_cons_self _ _
        · exact List.mem_cons_of_mem _ ((ih hnd.2).mpr ⟨h3, h2⟩)

theorem alookup_aremove_ne {κ α : Type} [DecidableEq κ] (m : List (κ × α))
    (k k' : κ) (h : ¬ k = k') : alookup (aremove m k) k' = alookup m k' := by
  induction m with
  | nil => simp [aremove]
  | cons p t ih =>
    obtain ⟨k0, v0⟩ := p
    by_cases hk : k0 = k
    · rw [show aremove ((k0, v0) :: t) k = t from by simp [aremove, hk]]
      rw [alookup, if_neg (hk.symm ▸ h)]
    · simp only [aremove, if_neg hk, alookup]
      by_cases hk' : k0 = k'
      · simp [hk']
      · simp [hk', ih]

theorem alookup_none_of_keys {κ α : Type} [DecidableEq κ] (m : List (κ × α))
    (k : κ) (h : k ∉ m.map Prod.fst) : alookup m k = none := by
  induction m with
  | nil => rfl
  | cons p t ih =>
    obtain ⟨k0, v0⟩ := p
    simp only [List.map_cons, List.mem_cons] at h
    push_neg at h
    rw [alookup, if_neg (fun he => h.1 he.symm)]
    exact ih h.2

theorem alookup_aremove_self {κ α : Type} [DecidableEq κ] (m : List (κ × α))
    (k : κ) (hnd : (m.map Prod.fst).Nodup) : alookup (aremove m k) k = none := by
  induction m with
  | nil => rfl
  | cons p t ih =>
    obtain ⟨k0, v0⟩ := p
    simp only [List.map_cons, List.nodup_cons] at hnd
    by_cases hk : k0 = k
    · subst hk
      simp only [aremove, if_pos rfl]
      exact alookup_none_of_keys _ _ hnd.1
    · simp only [aremove, if_neg hk, alookup, if_neg hk]
      exact ih hnd.2

theorem alookup_of_mem {κ α : Type} [DecidableEq κ] (m : List (κ × α)) (k : κ)
    (v : α) (hnd : (m.map Prod.fst).Nodup) (hm : (k, v) ∈ m) :
    alookup m k = some v := by
  induction m with
  | nil => cases hm
  | cons p t ih =>
    obtain ⟨k0, v0⟩ := p
    simp only [List.map_cons, List.nodup_cons] at hnd
    by_cases hk : k0 = k
    · subst hk
      rw [alookup, if_pos rfl]
      rcases List.mem_cons.mp hm with h1 | h1
      · cases h1
        rfl
      · exact absurd (List.mem_map_of_mem Prod.fst h1) hnd.1
    · rw [alookup, if_neg hk]
      rcases List.mem_cons.mp hm with h1 | h1
      · cases h1
        exact absurd rfl hk
      · exact ih hnd.2 h1

theorem alookup_isSome_of_mem {κ α : Type} [DecidableEq κ] (m : List (κ × α))
    (k : κ) (v : α) (hm : (k, v) ∈ m) : (alookup m k).isSome = true := by
  induction m with
  | nil => cases hm
  | cons p t ih =>
    obtain ⟨k0, v0⟩ := p
    by_cases hk : k0 = k
    · rw [alookup, if_pos hk]
      rfl
    · rw [alookup, if_neg hk]
      rcases List.mem_cons.mp hm with h1 | h1
      · cases h1
        exact absurd rfl hk
      · exact ih h1

/-! ### Claim C10 — `windowSnapshot` on inputs that fit the budget -/

/-- Claim C10: a snapshot whose length fits within `maxChars` is returned
whole — `truncated = false`, `hasMore = false`, `nextOffset = null`, reported
`offset = 0` whatever offset was requested — and a `null`/`undefined`/empty
snapshot yields `{text: "", truncated: false, totalChars: 0, offset: 0}`
(with `hasMore`/`nextOffset` absent). -/
theorem C10_windowSnapshot_small_input (y : List Char) (offset : Int)
    (maxChars tailChars : Nat) (hne : ¬ y = []) (hlen : y.length ≤ maxChars) :
    windowSnapshot (some y) offset maxChars tailChars =
      ⟨y, false, y.length, 0, some false, some none⟩ ∧
    windowSnapshot none offset maxChars tailChars = ⟨[], false, 0, 0, none, none⟩ ∧
    windowSnapshot (some []) offset maxChars tailChars = ⟨[], false, 0, 0, none, none⟩ := by
  refine ⟨?_, rfl, rfl⟩
  simp [windowSnapshot, hne, hlen]

/-- C10 at a concrete input. -/
theorem C10_windowSnapshot_small_input_witness :
    windowSnapshot (some "abc".data) 5 80000 5000 =
      ⟨"abc".data, false, 3, 0, some false, some none⟩ :=
  (C10_windowSnapshot_small_input "abc".data 5 80000 5000 (by decide) (by decide)).1

/-! ### Claim C4 — the snapshot window bound -/

/-- Claim C4, refuted as stated: with a tail budget exceeding the character
budget (`maxChars = 10`, `tailChars = 400`, 600-character snapshot) the
returned text is `500` characters plus the marker — far above
`maxChars + marker size` even when the 200-character marker budget is counted
as the marker size. -/
theorem C4_counterexample :
    (windowSnapshot (some (List.replicate 600 'a')) 0 10 400).text.length =
      500 + (markerChars 100 600).length ∧
    10 + (markerChars 100 600).length + 200 <
      (windowSnapshot (some (List.replicate 600 'a')) 0 10 400).text.length := by
  constructor
  · decide
  · decide

/-- Claim C4 as amended: provided the configured budgets are in the regime the
specification's own formula assumes — a positive tail budget and
`maxChars ≥ tailChars + 300`, satisfied by the defaults 80000/5000 — the
returned text is at most `maxChars` plus the marker's size (in fact at most
`maxChars − 200` plus the marker), and unconditionally the last
`min(tailChars, totalChars)` characters of the snapshot appear verbatim at
the end of the returned text. -/
theorem C4_windowSnapshot_window_amended (y : List Char) (offset : Int)
    (maxChars tailChars : Nat) (htail : 1 ≤ tailChars)
    (hbudget : tailChars + 300 ≤ maxChars) :
    (windowSnapshot (some y) offset maxChars tailChars).text.length
      ≤ maxChars + (snapshotMarker y offset maxChars tailChars).length ∧
    List.IsSuffix (lastChars y (min tailChars y.length))
      (windowSnapshot (some y) offset maxChars tailChars).text := by
  by_cases hy : y = []
  · subst hy
    exact ⟨by simp [windowSnapshot], by simp [windowSnapshot, lastChars]⟩
  · by_cases hlen : y.length ≤ maxChars
    · refine ⟨?_, ?_⟩
      · simp only [windowSnapshot, if_neg hy, if_pos hlen]
        exact le_trans hlen (Nat.le_add_right _ _)
      · simp only [windowSnapshot, if_neg hy, if_pos hlen, lastChars]
        exact List.drop_suffix _ _
    · have hlt : maxChars < y.length := Nat.lt_of_not_le hlen
      have htle : tailChars ≤ y.length := by omega
      have hmin : min tailChars y.length = tailChars := Nat.min_eq_left htle
      have hmax1 : max 1 maxChars = maxChars := Nat.max_eq_right (by omega)
      have hbud : max 100 (maxChars - tailChars - 200) = maxChars - tailChars - 200 :=
        Nat.max_eq_right (by omega)
      have htne : ¬ tailChars = 0 := by omega
      simp only [windowSnapshot, if_neg hy, if_neg hlen, snapshotMarker, hmin, hmax1,
        hbud, jsSliceNeg, if_neg htne]
      constructor
      · simp only [List.length_append, List.length_drop]
        have hchunk :
            ((y.drop (min (max 0 offset).toNat (y.length - tailChars))).take
                (maxChars - tailChars - 200)).length ≤ maxChars - tailChars - 200 := by
          simp
        omega
      · simp only [lastChars, hmin]
        exact List.suffix_append _ _

/-- C4 (amended) at a concrete input: the default budgets 80000/5000 on a
100001-character snapshot. -/
theorem C4_windowSnapshot_window_amended_witness :
    (windowSnapshot (some (List.replicate 100001 'b')) 0 80000 5000).text.length
      ≤ 80000 + (snapshotMarker (List.replicate 100001 'b') 0 80000 5000).length ∧
    List.IsSuffix (lastChars (List.replicate 100001 'b') (min 5000 (List.replicate 100001 'b').length))
      (windowSnapshot (some (List.replicate 100001 'b')) 0 80000 5000).text :=
  C4_windowSnapshot_window_amended (List.replicate 100001 'b') 0 80000 5000
    (by decide) (by decide)

/-! ### Claim C2 — per-tab serialization (`withTabLock`) -/

/-- Claim C2, refuted: three `withTabLock` calls on one tab, calls 1 and 2
arriving while call 0's operation is in flight.  Both waiters awaited the
promise stored at their arrival — call 0's — so when it settles, operations 1
and 2 both start before either finishes: the log shows `start 1, start 2`
adjacent and the peak concurrency is 2.  The chain is only one promise deep;
`withTabLock` serializes two concurrent calls but not three. -/
theorem C2_tabLock_overlap :
    (tlRun [.submit 0, .submit 1, .submit 2,
            .opResolve 0, .opResolve 1, .opResolve 2]).log =
      [.start 0, .finish 0, .start 1, .start 2, .finish 1, .finish 2] ∧
    maxConcurrent (tlRun [.submit 0, .submit 1, .submit 2,
            .opResolve 0, .opResolve 1, .opResolve 2]).log = 2 := by
  constructor
  · decide
  · decide

/-- Two concurrent calls, by contrast, are strictly serialized: the second
operation starts only after the first settles. -/
theorem tabLock_two_calls_serial :
    (tlRun [.submit 0, .submit 1, .opResolve 0, .opResolve 1]).log =
      [.start 0, .finish 0, .start 1, .finish 1] ∧
    maxConcurrent (tlRun [.submit 0, .submit 1, .opResolve 0, .opResolve 1]).log = 1 := by
  constructor
  · decide
  · decide

/-! ### Claim C6 — the per-user concurrency bound (`withUserLimit`) -/

/-- Claim C6, refuted: with `maxConcurrent = 1`, call 0 runs and call 1
queues.  When call 0 finishes, its `finally` resumes call 1 and then — seeing
`active == 0 && queue.length == 0` on the bucket — deletes the bucket while
call 1's increment is still pending on the (now orphaned) bucket object.
Call 2 then arrives, finds no bucket, creates a fresh one and runs at once:
operations 1 and 2 execute concurrently, so two operations run for one user
under a limit of 1. -/
theorem C6_userLimit_bound_violation :
    (ulRun 1 [.submit 0, .submit 1, .complete 0,
              .submit 2, .complete 1, .complete 2]).log =
      [.start 0, .finish 0, .start 1, .start 2, .finish 1, .finish 2] ∧
    maxConcurrent (ulRun 1 [.submit 0, .submit 1, .complete 0,
              .submit 2, .complete 1, .complete 2]).log = 2 := by
  constructor
  · decide
  · decide

/-! ### Claim C7 — `evaluateTab` results -/

/-- Claim C7, refuted on one point: an engine evaluation error whose message
is exactly the internal sentinel `EVAL_TIMEOUT` — the engine settled
immediately, the timer never fired — is classified as `errorType: "timeout"`,
not `"js_error"` as the claim states for evaluation errors. -/
theorem C7_counterexample :
    evaluateTab (some 5000) 0 (.errorMsg "EVAL_TIMEOUT") =
      .failure (timeoutMessage 5000) "timeout" ∧
    ¬ ("timeout" = "js_error") := by
  constructor
  · rfl
  · decide

/-- Claim C7 as amended: `evaluateTab` behaves exactly as the specification
describes — timeout clamped to `[100 ms, 30 s]`; timer win yields a
`timeout` failure; an evaluation error yields a `js_error` failure *unless
its message equals the sentinel `EVAL_TIMEOUT`, which is classified as a
timeout*; on success an unserializable value is returned raw with
`resultType = typeof value`, a serialization over 1 MB is replaced by the
placeholder with `truncated: true`, and otherwise the value is returned with
`resultType` in `{null, array, object, number, string, boolean}`. -/
theorem C7_evaluateTab_amended (requested : Option Int) (engineDuration : Nat)
    (engineOutcome : EvalOutcome) :
    evaluateTab requested engineDuration engineOutcome =
      evaluateSpecified requested engineDuration engineOutcome ∧
    100 ≤ clampEvalTimeout requested ∧ clampEvalTimeout requested ≤ 30000 ∧
    (match evaluateTab requested engineDuration engineOutcome with
     | .success _ rt true => rt = "string"
     | .success v rt false =>
       (jsonStringify v).isNone = true ∨
         rt ∈ (["null", "array", "object", "number", "string", "boolean"] : List String)
     | .failure _ et => et = "timeout" ∨ et = "js_error") := by
  refine ⟨?_, ?_, ?_, ?_⟩
  · unfold evaluateTab evaluateSpecified clampEvalTimeout defaultEvalTimeout maxEvalTimeout
    by_cases hrace : ((engineDuration : Int) ≤ min (max (requested.getD 5000) 100) 30000)
    · rw [if_neg (by omega), if_pos hrace]
    · rw [if_pos (by omega), if_neg hrace]
  · unfold clampEvalTimeout defaultEvalTimeout maxEvalTimeout
    omega
  · unfold clampEvalTimeout defaultEvalTimeout maxEvalTimeout
    omega
  · unfold evaluateTab
    by_cases hrace : (clampEvalTimeout requested < (engineDuration : Int))
    · simp [if_pos hrace]
    · simp only [if_neg hrace]
      match engineOutcome with
      | .errorMsg m =>
        by_cases hm : m = "EVAL_TIMEOUT"
        · simp [if_pos hm]
        · simp [if_neg hm]
      | .value v =>
        match hs : jsonStringify v with
        | none => simp [hs]
        | some serialized =>
          by_cases hbig : maxResultSize < serialized.length
          · simp [hs, if_pos hbig]
          · simp only [hs, if_neg hbig]
            refine Or.inr ?_
            match v with
            | .undef => simp [jsonStringify] at hs
            | .jfunc => simp [jsonStringify] at hs
            | .jnull => simp [jsResultType]
            | .jbool b => simp [jsResultType, typeofJS]
            | .jnum n => simp [jsResultType, typeofJS]
            | .jstr s => simp [jsResultType, typeofJS]
            | .jarr l => simp [jsResultType]
            | .jobj f => simp [jsResultType, typeofJS]

/-! ### Claim C9 — `withUserLimit` keys by lower-cased, trimmed userId -/

/-- Claim C9: `withUserLimit` buckets are keyed by
`String(userId).toLowerCase().trim()`, so any two userIds with the same
normalized form share one `{active, queue}` bucket — while the session map,
the download registry and the rate-limit store all key by the raw userId and
keep such ids distinct. -/
theorem C9_userLimit_key_normalization (u v : String)
    (m : List (String × ULBucket)) (h : userLimitKey u = userLimitKey v) :
    userConcurrencyGet m u = userConcurrencyGet m v ∧
    sessionMapKey u = u ∧ sessionMapKey v = v ∧
    downloadUserKey u = u ∧ downloadUserKey v = v ∧
    ∀ rl : List (String × RLEntry),
      rateLimitGet rl u = alookup rl u ∧ rateLimitGet rl v = alookup rl v := by
  refine ⟨?_, rfl, rfl, rfl, rfl, fun rl => ⟨rfl, rfl⟩⟩
  unfold userConcurrencyGet
  rw [h]

/-- C9 at a concrete pair: `"Alice "` and `"alice"` normalize to the same
limiter key (so they share a bucket in any `userConcurrency` map) yet are
distinct raw ids. -/
theorem C9_userLimit_key_normalization_witness :
    userLimitKey "Alice " = userLimitKey "alice" ∧
    ¬ ("Alice " = "alice") ∧
    userConcurrencyGet [("alice", ULBucket.mk 1 [])] "Alice " =
      userConcurrencyGet [("alice", ULBucket.mk 1 [])] "alice" :=
  ⟨by decide, by decide,
    (C9_userLimit_key_normalization "Alice " "alice"
      [("alice", ULBucket.mk 1 [])] (by decide)).1⟩

/-! ### Claim C8 — `checkRateLimit` implements a fixed window -/

/-- Claim C8: for a positive limit and window, under the store invariant
(counts between 1 and `max`, reset times at most one window away),
`checkRateLimit` (a) preserves the invariant, (b) answers a first request —
no entry, or an expired one — by installing `{count = 1, resetAt = now +
windowMs}` and allowing, (c) every allowed request leaves the window's count
at most `max` (the count equals the number of requests allowed in the current
window, so the k-th allowed request has `k ≤ max`), counting up by one inside
a window, and (d) denies exactly when the window already counted `max`
allowed requests, with `retryAfterMs = resetAt − now ∈ (0, windowMs]`. -/
theorem C8_checkRateLimit_fixed_window (store : List (String × RLEntry))
    (u : String) (maxRequests : Nat) (windowMs now : Int)
    (hmax : 1 ≤ maxRequests) (_hwin : 0 < windowMs)
    (hinv : RLInv store maxRequests windowMs now) :
    RLInv (checkRateLimit store u maxRequests windowMs now).1 maxRequests windowMs now ∧
    ((alookup store u = none ∨ ∃ e, alookup store u = some e ∧ e.resetAt ≤ now) →
      (checkRateLimit store u maxRequests windowMs now).2.1 = true ∧
      alookup (checkRateLimit store u maxRequests windowMs now).1 u =
        some ⟨1, now + windowMs⟩) ∧
    ((checkRateLimit store u maxRequests windowMs now).2.1 = true →
      ∃ e, alookup (checkRateLimit store u maxRequests windowMs now).1 u = some e ∧
        1 ≤ e.count ∧ e.count ≤ maxRequests ∧
        (∀ e0, alookup store u = some e0 → now < e0.resetAt → e.count = e0.count + 1)) ∧
    ((checkRateLimit store u maxRequests windowMs now).2.1 = false →
      ∃ e0, alookup store u = some e0 ∧ e0.count = maxRequests ∧
        (checkRateLimit store u maxRequests windowMs now).2.2 =
          some (e0.resetAt - now) ∧
        0 < e0.resetAt - now ∧ e0.resetAt - now ≤ windowMs) := by
  rcases hl : alookup store u with _ | entry
  · simp only [checkRateLimit, hl]
    refine ⟨?_, fun _ => ⟨by trivial, alookup_aset_self _ _ _⟩, ?_, ?_⟩
    · intro p hp
      rcases mem_aset _ _ _ _ hp with hp | hp
      · subst hp
        exact ⟨le_refl 1, hmax, le_refl _⟩
      · exact hinv p hp
    · intro _
      exact ⟨⟨1, now + windowMs⟩, alookup_aset_self _ _ _, le_refl 1, hmax,
        fun e0 he0 _ => by cases he0⟩
    · intro hfalse
      cases hfalse
  · have hentry : 1 ≤ entry.count ∧ entry.count ≤ maxRequests ∧
        entry.resetAt ≤ now + windowMs := hinv (u, entry) (alookup_mem _ _ _ hl)
    by_cases hreset : entry.resetAt ≤ now
    · simp only [checkRateLimit, hl, if_pos hreset]
      refine ⟨?_, fun _ => ⟨by trivial, alookup_aset_self _ _ _⟩, ?_, ?_⟩
      · intro p hp
        rcases mem_aset _ _ _ _ hp with hp | hp
        · subst hp
          exact ⟨le_refl 1, hmax, le_refl _⟩
        · exact hinv p hp
      · intro _
        refine ⟨⟨1, now + windowMs⟩, alookup_aset_self _ _ _, le_refl 1, hmax, ?_⟩
        intro e0 he0 hlt
        cases he0
        omega
      · intro hfalse
        cases hfalse
    · by_cases hcnt : entry.count < maxRequests
      · simp only [checkRateLimit, hl, if_neg hreset, if_pos hcnt]
        refine ⟨?_, ?_, ?_, ?_⟩
        · intro p hp
          rcases mem_aset _ _ _ _ hp with hp | hp
          · subst hp
            refine ⟨?_, ?_, ?_⟩ <;> dsimp only <;> omega
          · exact hinv p hp
        · rintro (hnone | ⟨e, he, hle⟩)
          · cases hnone
          · cases he
            exact absurd hle hreset
        · intro _
          refine ⟨⟨entry.count + 1, entry.resetAt⟩, alookup_aset_self _ _ _,
            by dsimp only; omega, by dsimp only; omega, ?_⟩
          intro e0 he0 _
          cases he0
          rfl
        · intro hfalse
          cases hfalse
      · simp only [checkRateLimit, hl, if_neg hreset, if_neg hcnt]
        refine ⟨hinv, ?_, ?_, ?_⟩
        · rintro (hnone | ⟨e, he, hle⟩)
          · cases hnone
          · cases he
            exact absurd hle hreset
        · intro htrue
          cases htrue
        · intro _
          refine ⟨entry, rfl, by omega, by trivial, by omega, by
            have h3 := hentry.2.2
            omega⟩

/-- C8 at a concrete run: an empty store, `max = 1`, a 60 s window at
`now = 0` — the first request is allowed and installs `{1, 60000}`. -/
theorem C8_checkRateLimit_fixed_window_witness :
    (checkRateLimit [] "u" 1 60000 0).2.1 = true ∧
    alookup (checkRateLimit [] "u" 1 60000 0).1 "u" = some ⟨1, 60000⟩ :=
  (C8_checkRateLimit_fixed_window [] "u" 1 60000 0 (by decide) (by decide)
    (fun p hp => absurd hp (by simp))).2.1 (Or.inl rfl)

/-! ### Claim C3 — the per-user download cap -/

theorem mem_dsetById_of_ne (m : List DInfo) (info d : DInfo) (hd : d ∈ m)
    (hne : ¬ d.id = info.id) : d ∈ dsetById m info := by
  induction m with
  | nil => cases hd
  | cons e t ih =>
    by_cases he : e.id = info.id
    · simp only [dsetById, if_pos he]
      rcases List.mem_cons.mp hd with h | h
      · subst h
        exact absurd he hne
      · exact List.mem_cons_of_mem _ h
    · simp only [dsetById, if_neg he]
      rcases List.mem_cons.mp hd with h | h
      · exact h ▸ List.mem_cons_self _ _
      · exact List.mem_cons_of_mem _ (ih h)

theorem dsetById_of_fresh (m : List DInfo) (info : DInfo)
    (h : ∀ d ∈ m, ¬ d.id = info.id) : dsetById m info = m ++ [info] := by
  induction m with
  | nil => rfl
  | cons e t ih =>
    have he : ¬ e.id = info.id := h e (List.mem_cons_self _ _)
    simp only [dsetById, if_neg he, List.cons_append]
    rw [ih (fun d hd => h d (List.mem_cons_of_mem _ hd))]

theorem selectOldest_mem (l : List DInfo) (b : DInfo) (h : selectOldest l = some b) :
    b ∈ l := by
  induction l with
  | nil => cases h
  | cons d rest ih =>
    simp only [selectOldest] at h
    cases hrest : selectOldest rest with
    | none =>
      simp only [hrest] at h
      cases h
      exact List.mem_cons_self _ _
    | some c =>
      simp only [hrest] at h
      by_cases hk : evictKey d ≤ evictKey c
      · rw [if_pos hk] at h
        cases h
        exact List.mem_cons_self _ _
      · rw [if_neg hk] at h
        cases h
        exact List.mem_cons_of_mem _ (ih hrest)

theorem selectOldest_eq_none (l : List DInfo) (h : selectOldest l = none) : l = [] := by
  cases l with
  | nil => rfl
  | cons d rest =>
    simp only [selectOldest] at h
    cases hrest : selectOldest rest with
    | none =>
      simp only [hrest] at h
      cases h
    | some c =>
      simp only [hrest] at h
      by_cases hk : evictKey d ≤ evictKey c
      · rw [if_pos hk] at h; cases h
      · rw [if_neg hk] at h; cases h

theorem selectOldest_min (l : List DInfo) :
    ∀ b : DInfo, selectOldest l = some b → ∀ e ∈ l, evictKey b ≤ evictKey e := by
  induction l with
  | nil => intro b h; cases h
  | cons d rest ih =>
    intro b h e he
    simp only [selectOldest] at h
    cases hrest : selectOldest rest with
    | none =>
      simp only [hrest] at h
      cases h
      rcases List.mem_cons.mp he with h1 | h1
      · exact h1 ▸ le_refl _
      · rw [selectOldest_eq_none rest hrest] at h1
        cases h1
    | some c =>
      simp only [hrest] at h
      by_cases hk : evictKey d ≤ evictKey c
      · rw [if_pos hk] at h
        cases h
        rcases List.mem_cons.mp he with h1 | h1
        · exact h1 ▸ le_refl _
        · exact le_trans hk (ih c hrest e h1)
      · rw [if_neg hk] at h
        cases h
        rcases List.mem_cons.mp he with h1 | h1
        · exact h1 ▸ le_of_lt (lt_of_not_le hk)
        · exact ih _ hrest e h1

theorem length_filter_ne_id (l : List DInfo) (a : DInfo)
    (h : (l.map DInfo.id).Nodup) (ha : a ∈ l) :
    (l.filter (fun e => ¬ e.id = a.id)).length + 1 = l.length := by
  induction l with
  | nil => cases ha
  | cons e t ih =>
    simp only [List.map_cons, List.nodup_cons] at h
    rcases List.mem_cons.mp ha with h1 | h1
    · subst h1
      have ht : t.filter (fun x => ¬ x.id = a.id) = t := by
        apply List.filter_eq_self.mpr
        intro x hx
        have hne : ¬ x.id = a.id := fun hxa =>
          h.1 (hxa ▸ List.mem_map_of_mem DInfo.id hx)
        simpa using hne
      have hstep : (a :: t).filter (fun x => ¬ x.id = a.id) =
          t.filter (fun x => ¬ x.id = a.id) := by
        simp [List.filter_cons]
      rw [hstep, ht]
      simp
    · have hea : ¬ e.id = a.id := fun hid =>
        h.1 (hid ▸ List.mem_map_of_mem DInfo.id h1)
      have hstep : (e :: t).filter (fun x => ¬ x.id = a.id) =
          e :: t.filter (fun x => ¬ x.id = a.id) := by
        simp [List.filter_cons, hea]
      rw [hstep]
      have h2 := ih h.2 h1
      simp only [List.length_cons]
      omega

/-- Claim C3, refuted as stated: with `maxDownloadsPerUser = 1`, inserting two
`pending` entries for one user leaves that user with 2 registry entries —
nothing is evictable, yet the insert proceeds, so the cap is exceeded. -/
theorem C3_counterexample :
    userCount
      (upsertDownload 1
        (upsertDownload 1 ⟨[], []⟩ ⟨"d1", "u", .pending, 0, none, "f1"⟩)
        ⟨"d2", "u", .pending, 5, none, "f2"⟩) "u" = 2 ∧ 1 < 2 := by
  constructor
  · decide
  · decide

/-- Claim C3 as amended: one `upsertDownload` step (a) never evicts a
`pending` entry — a pending entry disappears only if overwritten under its
own id; (b) any entry it evicts belongs to the inserting user, is
non-pending, is oldest by `completedAt ?? createdAt` among the user's
non-pending entries, and its file is unlinked; and (c) inserting a fresh id
keeps the user's count within `max(cap, previous count)` *provided* the user
is under the cap or holds at least one non-pending entry — when every
existing entry of the user is pending, the insert still proceeds and the
count exceeds the cap (hence the counterexample). -/
theorem C3_downloadCap_amended (cap : Nat) (reg : DReg) (info : DInfo)
    (hids : (reg.entries.map DInfo.id).Nodup) :
    (∀ d ∈ reg.entries, d.status = DStatus.pending →
      d.id = info.id ∨ d ∈ (upsertDownload cap reg info).entries) ∧
    (∀ d ∈ reg.entries, d ∉ (upsertDownload cap reg info).entries →
      ¬ d.id = info.id →
      d.userId = info.userId ∧ ¬ d.status = DStatus.pending ∧
      (∀ e ∈ reg.entries, e.userId = info.userId → ¬ e.status = DStatus.pending →
        evictKey d ≤ evictKey e) ∧
      (d.userId, d.savedFilename) ∈ (upsertDownload cap reg info).unlinked) ∧
    ((∀ d ∈ reg.entries, ¬ d.id = info.id) →
      (userCount reg info.userId < cap ∨
        ∃ d ∈ reg.entries, d.userId = info.userId ∧ ¬ d.status = DStatus.pending) →
      userCount (upsertDownload cap reg info) info.userId ≤
        max cap (userCount reg info.userId)) := by
  by_cases hnew : reg.entries.all (fun d => ¬ d.id = info.id) = true
  · have hfresh : ∀ d ∈ reg.entries, ¬ d.id = info.id := by
      intro d hd
      have := List.all_eq_true.mp hnew d hd
      simpa using this
    by_cases hcap : cap ≤ (userEntries reg info.userId).length
    · cases hsel : selectOldest ((userEntries reg info.userId).filter
        (fun d => ¬ d.status = DStatus.pending)) with
      | none =>
        have hev : (userEntries reg info.userId).filter
            (fun d => ¬ d.status = DStatus.pending) = [] := selectOldest_eq_none _ hsel
        have hres : upsertDownload cap reg info =
            ⟨reg.entries ++ [info], reg.unlinked⟩ := by
          simp only [upsertDownload, hnew, if_pos hcap, hsel, if_true]
          rw [dsetById_of_fresh _ _ hfresh]
        refine ⟨?_, ?_, ?_⟩
        · intro d hd _
          exact Or.inr (by rw [hres]; exact List.mem_append_left _ hd)
        · intro d hd hnot _
          exact absurd (by rw [hres]; exact List.mem_append_left _ hd) hnot
        · intro _ hside
          rcases hside with hlt | ⟨d, hd, hud, hnp⟩
          · exfalso
            have hq : userCount reg info.userId =
              (userEntries reg info.userId).length := rfl
            omega
          · exfalso
            have : d ∈ (userEntries reg info.userId).filter
                (fun x => ¬ x.status = DStatus.pending) := by
              apply List.mem_filter.mpr
              refine ⟨List.mem_filter.mpr ⟨hd, by simpa using hud⟩, by simpa using hnp⟩
            rw [hev] at this
            cases this
      | some oldest =>
        have holdmem := selectOldest_mem _ _ hsel
        have hold2 := List.mem_filter.mp holdmem
        have holdue := List.mem_filter.mp hold2.1
        have holdreg : oldest ∈ reg.entries := holdue.1
        have holduid : oldest.userId = info.userId := by simpa using holdue.2
        have holdnp : ¬ oldest.status = DStatus.pending := by simpa using hold2.2
        have hres : upsertDownload cap reg info =
            ⟨(reg.entries.filter (fun e => ¬ e.id = oldest.id)) ++ [info],
             reg.unlinked ++ [(oldest.userId, oldest.savedFilename)]⟩ := by
          simp only [upsertDownload, hnew, if_pos hcap, hsel, if_true,
            deleteDownloadEntry]
          rw [dsetById_of_fresh _ _
            (fun d hd => hfresh d (List.mem_of_mem_filter hd))]
        refine ⟨?_, ?_, ?_⟩
        · intro d hd hdp
          refine Or.inr ?_
          rw [hres]
          apply List.mem_append_left
          apply List.mem_filter.mpr
          refine ⟨hd, ?_⟩
          have : ¬ d.id = oldest.id := by
            intro hid
            have : d = oldest := List.inj_on_of_nodup_map hids hd holdreg hid
            rw [this] at hdp
            exact holdnp hdp
          simpa using this
        · intro d hd hnot hni
          have hdid : d.id = oldest.id := by
            by_contra hne
            apply hnot
            rw [hres]
            exact List.mem_append_left _
              (List.mem_filter.mpr ⟨hd, by simpa using hne⟩)
          have hdo : d = oldest := List.inj_on_of_nodup_map hids hd holdreg hdid
          subst hdo
          refine ⟨holduid, holdnp, ?_, ?_⟩
          · intro e he heu hep
            refine selectOldest_min _ _ hsel e ?_
            apply List.mem_filter.mpr
            refine ⟨List.mem_filter.mpr ⟨he, by simpa using heu⟩, by simpa using hep⟩
          · rw [hres]
            exact List.mem_append_right _ (List.mem_singleton.mpr rfl)
        · intro _ _
          have hq : userCount reg info.userId =
            (userEntries reg info.userId).length := rfl
          have hcnt : userCount (upsertDownload cap reg info) info.userId =
              (userEntries reg info.userId).length := by
            rw [hres]
            unfold userCount userEntries
            simp only [List.filter_append]
            rw [List.filter_comm]
            have hlast : List.filter (fun d => d.userId = info.userId) [info] =
                [info] := by simp
            rw [hlast, List.length_append]
            have hnd : ((reg.entries.filter (fun d => d.userId = info.userId)).map
                DInfo.id).Nodup :=
              ((List.filter_sublist _).map DInfo.id).nodup hids
            have hmem : oldest ∈ reg.entries.filter
                (fun d => d.userId = info.userId) :=
              List.mem_filter.mpr ⟨holdreg, by simpa using holduid⟩
            have h9 := length_filter_ne_id _ oldest hnd hmem
            simp only [List.length_singleton]
            omega
          rw [hcnt, hq]
          exact le_max_right _ _
    · have hres : upsertDownload cap reg info =
          ⟨reg.entries ++ [info], reg.unlinked⟩ := by
        simp only [upsertDownload, hnew, if_neg hcap, if_true]
        rw [dsetById_of_fresh _ _ hfresh]
      refine ⟨?_, ?_, ?_⟩
      · intro d hd _
        exact Or.inr (by rw [hres]; exact List.mem_append_left _ hd)
      · intro d hd hnot _
        exact absurd (by rw [hres]; exact List.mem_append_left _ hd) hnot
      · intro _ _
        have hq : userCount reg info.userId =
          (userEntries reg info.userId).length := rfl
        have hcnt : userCount (upsertDownload cap reg info) info.userId =
            (userEntries reg info.userId).length + 1 := by
          rw [hres]
          unfold userCount userEntries
          simp
        have hle : (userEntries reg info.userId).length + 1 ≤ cap := by omega
        rw [hcnt]
        exact le_trans hle (le_max_left _ _)
  · have hnewF : reg.entries.all (fun d => ¬ d.id = info.id) = false :=
      Bool.eq_false_iff.mpr hnew
    have hres : upsertDownload cap reg info =
        ⟨dsetById reg.entries info, reg.unlinked⟩ := by
      simp only [upsertDownload, hnewF]
      simp
    refine ⟨?_, ?_, ?_⟩
    · intro d hd _
      by_cases hdi : d.id = info.id
      · exact Or.inl hdi
      · exact Or.inr (by rw [hres]; exact mem_dsetById_of_ne _ _ _ hd hdi)
    · intro d hd hnot hni
      exact absurd (by rw [hres]; exact mem_dsetById_of_ne _ _ _ hd hni) hnot
    · intro hall _
      exfalso
      rw [List.all_eq_true] at hnew
      apply hnew
      intro d hd
      simpa using hall d hd

/-! ### Claim C5 — ref extraction -/

theorem acceptLine_eq_claimAccept (line : List Char) :
    acceptLine line = claimAccept line := by
  unfold acceptLine claimAccept
  cases hp : parseCandidate line with
  | none => rfl
  | some p =>
    obtain ⟨role, nameOpt⟩ := p
    by_cases hcombo : lowerChars role = "combobox".data
    · have hnotrole : ¬ lowerChars role ∈ interactiveRoles := by
        rw [hcombo]
        decide
      simp [hcombo, hnotrole]
    · cases nameOpt with
      | none =>
        have hskip : skipName ([] : List Char) = false := by decide
        simp [hcombo, hskip]
      | some n =>
        by_cases hn : n = []
        · subst hn
          have hskip : skipName ([] : List Char) = false := by decide
          simp [hcombo, hskip]
        · by_cases hs : skipName n = true
          · simp [hcombo, hn, hs]
          · have hs' : skipName n = false := Bool.eq_false_iff.mpr hs
            simp [hcombo, hn, hs']

theorem countPair_update (P : List (List Char × List Char))
    (a : List Char × List Char) :
    (fun k => if k = a then countPair P a + 1 else countPair P k) =
      fun k => countPair (P ++ [a]) k := by
  funext k
  by_cases hk : k = a
  · subst hk
    simp [countPair, List.filter_append]
  · have hak : ¬ a = k := fun h => hk h.symm
    simp only [if_neg hk, countPair, List.filter_append]
    have hnil : List.filter (fun q => decide (q = k)) [a] = [] := by simp [hak]
    rw [hnil]
    simp

theorem specGo_of_ge (P : List (List Char × List Char))
    (A : List (List Char × List Char)) (h : 500 < P.length + 1) :
    specGo P A = [] := by
  cases A with
  | nil => rfl
  | cons a t => simp [specGo, if_pos h]

theorem buildRefsGo_eq_specGo (lines : List (List Char)) :
    ∀ P : List (List Char × List Char),
      buildRefsGo lines (P.length + 1) (fun k => countPair P k) =
        specGo P (lines.filterMap acceptLine) := by
  induction lines with
  | nil => intro P; rfl
  | cons line rest ih =>
    intro P
    by_cases hbreak : 500 < P.length + 1
    · rw [specGo_of_ge _ _ hbreak]
      simp [buildRefsGo, if_pos hbreak]
    · cases hacc : acceptLine line with
      | none =>
        rw [List.filterMap_cons_none hacc]
        simp only [buildRefsGo, if_neg hbreak, hacc]
        exact ih P
      | some a =>
        rw [show List.filterMap acceptLine (line :: rest) =
            a :: List.filterMap acceptLine rest by
          simp [List.filterMap_cons, hacc]]
        simp only [buildRefsGo, if_neg hbreak, hacc, specGo, if_neg hbreak]
        refine congrArg₂ _ rfl ?_
        rw [countPair_update P a]
        have hlen : (P ++ [a]).length = P.length + 1 := by simp
        have := ih (P ++ [a])
        rw [hlen] at this
        exact this

theorem specGo_length (A : List (List Char × List Char)) :
    ∀ P, (specGo P A).length = min A.length (500 - P.length) := by
  induction A with
  | nil => intro P; simp [specGo]
  | cons a t ih =>
    intro P
    by_cases hbreak : 500 < P.length + 1
    · rw [specGo_of_ge _ _ hbreak]
      simp
      omega
    · simp only [specGo, if_neg hbreak, List.length_cons]
      have := ih (P ++ [a])
      simp only [List.length_append, List.length_singleton] at this
      rw [this]
      omega

theorem specGo_getD (A : List (List Char × List Char)) :
    ∀ (P : List (List Char × List Char)) (i : Nat), i < (specGo P A).length →
      (specGo P A).getD i refDefault =
        ('e' :: natChars (P.length + i + 1),
          ⟨(A.getD i candDefault).1, (A.getD i candDefault).2,
           countPair (P ++ A.take i) (A.getD i candDefault)⟩) := by
  induction A with
  | nil => intro P i hi; simp [specGo] at hi
  | cons a t ih =>
    intro P i hi
    by_cases hbreak : 500 < P.length + 1
    · rw [specGo_of_ge _ _ hbreak] at hi
      simp at hi
    · simp only [specGo, if_neg hbreak] at hi ⊢
      cases i with
      | zero =>
        simp [List.getD_cons_zero]
      | succ j =>
        simp only [List.length_cons, Nat.succ_lt_succ_iff] at hi
        simp only [List.getD_cons_succ, List.take_succ_cons]
        have hrec := ih (P ++ [a]) j hi
        have h1 : (P ++ [a]).length + j + 1 = P.length + (j + 1) + 1 := by
          simp
          omega
        have h2 : (P ++ [a]) ++ t.take j = P ++ (a :: t.take j) := by
          simp [List.append_assoc]
        rw [h1, h2] at hrec
        exact hrec

/-- Claim C5: ref extraction walks the snapshot lines in order and accepts
exactly the candidate lines whose lower-cased role is in the fixed
interactive set (hence not `combobox`) and whose name matches none of the
date/calendar/picker/datepicker patterns (`acceptLine = claimAccept`); the
`k`-th accepted node (1-based) receives refId `"e" ++ k`, its `nth` equals
the number of previously accepted nodes with the same `(role_lower, name)`,
and no more than 500 nodes are accepted. -/
theorem C5_buildRefs_extraction (yaml : List Char) :
    (∀ line, acceptLine line = claimAccept line) ∧
    (buildRefs yaml).length = min (acceptedCandidates yaml).length 500 ∧
    (buildRefs yaml).length ≤ 500 ∧
    (∀ i, i < (buildRefs yaml).length →
      (buildRefs yaml).getD i refDefault =
        ('e' :: natChars (i + 1),
          ⟨((acceptedCandidates yaml).getD i candDefault).1,
           ((acceptedCandidates yaml).getD i candDefault).2,
           countPair ((acceptedCandidates yaml).take i)
             ((acceptedCandidates yaml).getD i candDefault)⟩)) := by
  have hmain : buildRefs yaml = specGo [] (acceptedCandidates yaml) := by
    unfold buildRefs acceptedCandidates
    exact buildRefsGo_eq_specGo (splitOnChar '\n' yaml) []
  have hlen : (buildRefs yaml).length = min (acceptedCandidates yaml).length 500 := by
    rw [hmain, specGo_length]
    simp
  refine ⟨acceptLine_eq_claimAccept, hlen, ?_, ?_⟩
  · rw [hlen]
    exact min_le_right _ _
  · intro i hi
    rw [hmain] at hi ⊢
    have := specGo_getD (acceptedCandidates yaml) [] i hi
    simpa using this

/-! ### Claim C1 — tab ownership in the session registry -/

theorem mem_flatTabs (s : RegState) (t k g : String) :
    (t, k, g) ∈ flatTabs s ↔ ∃ sess tabs, (k, sess) ∈ s.sessions ∧
      (g, tabs) ∈ sess.tabGroups ∧ t ∈ tabs := by
  unfold flatTabs
  constructor
  · intro hp
    rcases List.mem_flatMap.mp hp with ⟨ks, hks, hp2⟩
    rcases List.mem_flatMap.mp hp2 with ⟨gt, hgt, hp3⟩
    rcases List.mem_map.mp hp3 with ⟨t0, ht0, heq⟩
    injection heq with h1 hrest
    injection hrest with h2 h3
    subst h1
    subst h2
    subst h3
    exact ⟨ks.2, gt.2, by simpa using hks, by simpa using hgt, ht0⟩
  · rintro ⟨sess, tabs, hks, hgt, ht⟩
    exact List.mem_flatMap.mpr ⟨(k, sess), hks,
      List.mem_flatMap.mpr ⟨(g, tabs), hgt, List.mem_map.mpr ⟨t, ht, rfl⟩⟩⟩

theorem findTabInGroups_some (gs : List (String × List String)) (t g : String)
    (h : findTabInGroups gs t = some g) : ∃ tabs, (g, tabs) ∈ gs ∧ t ∈ tabs := by
  induction gs with
  | nil => cases h
  | cons gt rest ih =>
    obtain ⟨g0, tabs0⟩ := gt
    simp only [findTabInGroups] at h
    by_cases hmem : t ∈ tabs0
    · rw [if_pos hmem] at h
      cases h
      exact ⟨tabs0, List.mem_cons_self _ _, hmem⟩
    · rw [if_neg hmem] at h
      rcases ih h with ⟨tabs, h1, h2⟩
      exact ⟨tabs, List.mem_cons_of_mem _ h1, h2⟩

theorem findTabInGroups_none (gs : List (String × List String)) (t : String)
    (h : findTabInGroups gs t = none) : ∀ gt ∈ gs, t ∉ gt.2 := by
  induction gs with
  | nil => intro gt hgt; cases hgt
  | cons q rest ih =>
    obtain ⟨g0, tabs0⟩ := q
    simp only [findTabInGroups] at h
    by_cases hmem : t ∈ tabs0
    · rw [if_pos hmem] at h
      cases h
    · rw [if_neg hmem] at h
      intro gt hgt
      rcases List.mem_cons.mp hgt with h1 | h1
      · rw [h1]
        exact hmem
      · exact ih h gt h1

theorem findTabInGroups_isSome (gs : List (String × List String)) (t : String)
    (gt : String × List String) (hgt : gt ∈ gs) (ht : t ∈ gt.2) :
    (findTabInGroups gs t).isSome = true := by
  induction gs with
  | nil => cases hgt
  | cons q rest ih =>
    obtain ⟨g0, tabs0⟩ := q
    simp only [findTabInGroups]
    by_cases hmem : t ∈ tabs0
    · rw [if_pos hmem]
      rfl
    · rw [if_neg hmem]
      rcases List.mem_cons.mp hgt with h1 | h1
      · rw [h1] at ht
        exact absurd ht hmem
      · exact ih h1

theorem scanSessions_some (l : List (String × SessionD)) (t u k g : String)
    (h : scanSessions l t u = some (k, g)) :
    ∃ sess, (k, sess) ∈ l ∧ keyMatchesUser k u = true ∧
      findTabInGroups sess.tabGroups t = some g := by
  induction l with
  | nil => cases h
  | cons q rest ih =>
    obtain ⟨k0, sess0⟩ := q
    simp only [scanSessions] at h
    by_cases hkey : keyMatchesUser k0 u = true
    · rw [if_pos hkey] at h
      cases hfind : findTabInGroups sess0.tabGroups t with
      | some g0 =>
        rw [hfind] at h
        cases h
        exact ⟨sess0, List.mem_cons_self _ _, hkey, hfind⟩
      | none =>
        rw [hfind] at h
        rcases ih h with ⟨sess, h1, h2, h3⟩
        exact ⟨sess, List.mem_cons_of_mem _ h1, h2, h3⟩
    · rw [if_neg hkey] at h
      rcases ih h with ⟨sess, h1, h2, h3⟩
      exact ⟨sess, List.mem_cons_of_mem _ h1, h2, h3⟩

theorem scanSessions_isSome (l : List (String × SessionD)) (t u : String)
    (p : String × SessionD) (hp : p ∈ l) (hm : keyMatchesUser p.1 u = true)
    (hf : (findTabInGroups p.2.tabGroups t).isSome = true) :
    (scanSessions l t u).isSome = true := by
  induction l with
  | nil => cases hp
  | cons q rest ih =>
    obtain ⟨k0, sess0⟩ := q
    simp only [scanSessions]
    by_cases hkey : keyMatchesUser k0 u = true
    · rw [if_pos hkey]
      cases hfind : findTabInGroups sess0.tabGroups t with
      | some g0 => rfl
      | none =>
        rcases List.mem_cons.mp hp with h1 | h1
        · rw [h1] at hf
          simp only [hfind] at hf
          cases hf
        · exact ih h1
    · rw [if_neg hkey]
      rcases List.mem_cons.mp hp with h1 | h1
      · rw [h1] at hm
        exact absurd hm hkey
      · exact ih h1

theorem tabKnown_iff (s : RegState) (t : String) :
    tabKnown s t = true ↔ ∃ k g, (t, k, g) ∈ flatTabs s := by
  unfold tabKnown
  rw [List.any_eq_true]
  constructor
  · rintro ⟨ks, hks, hany⟩
    rw [List.any_eq_true] at hany
    rcases hany with ⟨gt, hgt, hmem⟩
    refine ⟨ks.1, gt.1, (mem_flatTabs s t ks.1 gt.1).mpr
      ⟨ks.2, gt.2, by simpa using hks, by simpa using hgt, by simpa using hmem⟩⟩
  · rintro ⟨k, g, hmem⟩
    rcases (mem_flatTabs s t k g).mp hmem with ⟨sess, tabs, hks, hgt, ht⟩
    exact ⟨(k, sess), hks, List.any_eq_true.mpr ⟨(g, tabs), hgt, by simpa using ht⟩⟩

theorem findTabById_some_mem (s : RegState) (t u k g : String)
    (h : findTabById s t u = some (k, g)) :
    (t, k, g) ∈ flatTabs s ∧ keyMatchesUser k u = true := by
  unfold findTabById at h
  cases hidx : alookup s.index t with
  | none =>
    simp only [hidx] at h
    rcases scanSessions_some _ _ _ _ _ h with ⟨sess, h1, h2, h3⟩
    rcases findTabInGroups_some _ _ _ h3 with ⟨tabs, h4, h5⟩
    exact ⟨(mem_flatTabs s t k g).mpr ⟨sess, tabs, h1, h4, h5⟩, h2⟩
  | some k0 =>
    simp only [hidx] at h
    by_cases hkey : keyMatchesUser k0 u = true
    · rw [if_pos hkey] at h
      cases hsess : alookup s.sessions k0 with
      | none =>
        simp only [hsess] at h
        rcases scanSessions_some _ _ _ _ _ h with ⟨sess, h1, h2, h3⟩
        rcases findTabInGroups_some _ _ _ h3 with ⟨tabs, h4, h5⟩
        exact ⟨(mem_flatTabs s t k g).mpr ⟨sess, tabs, h1, h4, h5⟩, h2⟩
      | some sess =>
        simp only [hsess] at h
        cases hfind : findTabInGroups sess.tabGroups t with
        | none =>
          simp only [hfind] at h
          rcases scanSessions_some _ _ _ _ _ h with ⟨sess1, h1, h2, h3⟩
          rcases findTabInGroups_some _ _ _ h3 with ⟨tabs, h4, h5⟩
          exact ⟨(mem_flatTabs s t k g).mpr ⟨sess1, tabs, h1, h4, h5⟩, h2⟩
        | some g1 =>
          simp only [hfind] at h
          cases h
          rcases findTabInGroups_some _ _ _ hfind with ⟨tabs, h4, h5⟩
          exact ⟨(mem_flatTabs s t k g).mpr
            ⟨sess, tabs, alookup_mem _ _ _ hsess, h4, h5⟩, hkey⟩
    · rw [if_neg hkey] at h
      cases h

theorem findTabById_isSome_iff (s : RegState) (hwf : RegWF s) (t u : String) :
    (findTabById s t u).isSome = true ↔
      ∃ k g, (t, k, g) ∈ flatTabs s ∧ keyMatchesUser k u = true := by
  obtain ⟨hG1, hG5, hG6, hG2, hG3, hG4⟩ := hwf
  constructor
  · intro hsome
    rcases Option.isSome_iff_exists.mp hsome with ⟨⟨k, g⟩, hfind⟩
    rcases findTabById_some_mem _ _ _ _ _ hfind with ⟨h1, h2⟩
    exact ⟨k, g, h1, h2⟩
  · rintro ⟨k, g, hmem, hkey⟩
    cases hidx : alookup s.index t with
    | none =>
      exact absurd ((hG4 t k).mpr ⟨g, hmem⟩) (by rw [hidx]; intro hc; cases hc)
    | some k0 =>
      have hk0 : k0 = k := by
        rcases (hG4 t k0).mp hidx with ⟨g0, hmem0⟩
        have h9 := hG2 _ hmem0 _ hmem rfl
        exact congrArg (fun p => p.2.1) h9
      subst hk0
      rcases (mem_flatTabs s t k0 g).mp hmem with ⟨sess, tabs, hks, hgt, htm⟩
      have hlook : alookup s.sessions k0 = some sess := alookup_of_mem _ _ _ hG1 hks
      have hfs : (findTabInGroups sess.tabGroups t).isSome = true :=
        findTabInGroups_isSome _ _ (g, tabs) hgt htm
      rcases Option.isSome_iff_exists.mp hfs with ⟨g1, hg1⟩
      have hres : findTabById s t u = some (k0, g1) := by
        unfold findTabById
        simp only [hidx, if_pos hkey, hlook, hg1]
      rw [hres]
      rfl

theorem regWF_apply (s : RegState) (op : RegOp) (hwf : RegWF s) :
    RegWF (applyRegOp s op) := by
  obtain ⟨hG1, hG5, hG6, hG2, hG3, hG4⟩ := hwf
  cases op with
  | create u g t =>
    by_cases htk : tabKnown s t = true
    · rw [show applyRegOp s (.create u g t) = s from by
        simp [applyRegOp, htk]]
      exact ⟨hG1, hG5, hG6, hG2, hG3, hG4⟩
    · have happ : applyRegOp s (.create u g t) =
          ⟨aset s.sessions u
            ⟨aset ((alookup s.sessions u).getD ⟨[]⟩).tabGroups g
              ((alookup (((alookup s.sessions u).getD ⟨[]⟩)).tabGroups g).getD []
                ++ [t])⟩,
           aset s.index t u⟩ := by
        simp only [applyRegOp, Bool.not_eq_true] at htk ⊢
        rw [htk]
        rfl
      rw [happ]
      set sess : SessionD := (alookup s.sessions u).getD ⟨[]⟩ with hsess_def
      set tabs : List String := (alookup sess.tabGroups g).getD [] with htabs_def
      have hsessnd : (sess.tabGroups.map Prod.fst).Nodup := by
        rw [hsess_def]
        cases hlu : alookup s.sessions u with
        | none => simp
        | some s0 => exact hG5 (u, s0) (alookup_mem _ _ _ hlu)
      have hsessG6 : ∀ gt ∈ sess.tabGroups, gt.2.Nodup := by
        rw [hsess_def]
        cases hlu : alookup s.sessions u with
        | none => intro gt hgt; cases hgt
        | some s0 => exact hG6 (u, s0) (alookup_mem _ _ _ hlu)
      have hsess_old : ∀ gt ∈ sess.tabGroups, ∀ x ∈ gt.2, (x, u, gt.1) ∈ flatTabs s := by
        rw [hsess_def]
        cases hlu : alookup s.sessions u with
        | none => intro gt hgt; cases hgt
        | some s0 =>
          intro gt hgt x hx
          exact (mem_flatTabs s x u gt.1).mpr
            ⟨s0, gt.2, alookup_mem _ _ _ hlu, by simpa using hgt, hx⟩
      have htabs_mem : ∀ x ∈ tabs, (x, u, g) ∈ flatTabs s := by
        rw [htabs_def]
        cases hlg : alookup sess.tabGroups g with
        | none => intro x hx; cases hx
        | some l0 =>
          intro x hx
          exact hsess_old (g, l0) (alookup_mem _ _ _ hlg) x hx
      have htnotin : t ∉ tabs := fun hx =>
        htk ((tabKnown_iff s t).mpr ⟨u, g, htabs_mem t hx⟩)
      have htabsnd : tabs.Nodup := by
        rw [htabs_def]
        cases hlg : alookup sess.tabGroups g with
        | none => simp
        | some l0 => exact hsessG6 (g, l0) (alookup_mem _ _ _ hlg)
      have hflat : ∀ t' k' g',
          (t', k', g') ∈ flatTabs ⟨aset s.sessions u ⟨aset sess.tabGroups g (tabs ++ [t])⟩, aset s.index t u⟩ ↔
            ((t', k', g') ∈ flatTabs s ∨ (t' = t ∧ k' = u ∧ g' = g)) := by
        intro t' k' g'
        constructor
        · intro hp
          rcases (mem_flatTabs _ t' k' g').mp hp with ⟨sess1, tabs1, hks1, hgt1, ht1⟩
          rcases (mem_aset_iff _ _ _ _ hG1).mp hks1 with hnew | ⟨hold, hne⟩
          · injection hnew with hku hsess1
            subst hku
            subst hsess1
            rcases (mem_aset_iff _ _ _ _ hsessnd).mp hgt1 with hg2 | ⟨hgold, hgne⟩
            · injection hg2 with hgg htabs1
              subst hgg
              subst htabs1
              rcases List.mem_append.mp ht1 with ht2 | ht2
              · exact Or.inl (htabs_mem t' ht2)
              · rcases List.mem_singleton.mp ht2 with rfl
                exact Or.inr ⟨rfl, rfl, rfl⟩
            · exact Or.inl (hsess_old (g', tabs1) hgold t' ht1)
          · exact Or.inl ((mem_flatTabs s t' k' g').mpr ⟨sess1, tabs1, hold, hgt1, ht1⟩)
        · rintro (hmem | ⟨ht0, hk0, hg0⟩)
          · rcases (mem_flatTabs s t' k' g').mp hmem with ⟨sess1, tabs1, hks1, hgt1, ht1⟩
            by_cases hku : k' = u
            · have hlu : alookup s.sessions u = some sess1 := by
                rw [← hku]
                exact alookup_of_mem _ _ _ hG1 hks1
              have hsess_eq : sess = sess1 := by
                rw [hsess_def, hlu]
                rfl
              have hgt1' : (g', tabs1) ∈ sess.tabGroups := by
                rw [hsess_eq]
                exact hgt1
              by_cases hgg : g' = g
              · have htabs_eq : tabs = tabs1 := by
                  rw [htabs_def, ← hgg, alookup_of_mem _ _ _ hsessnd hgt1']
                  rfl
                have ht1' : t' ∈ tabs ++ [t] :=
                  List.mem_append_left _ (by rw [htabs_eq]; exact ht1)
                refine (mem_flatTabs _ t' k' g').mpr
                  ⟨⟨aset sess.tabGroups g (tabs ++ [t])⟩, tabs ++ [t], ?_, ?_, ht1'⟩
                · rw [hku]
                  exact self_mem_aset _ _ _
                · rw [hgg]
                  exact self_mem_aset _ _ _
              · refine (mem_flatTabs _ t' k' g').mpr
                  ⟨⟨aset sess.tabGroups g (tabs ++ [t])⟩, tabs1, ?_,
                   mem_aset_of_ne _ _ _ _ hgt1' hgg, ht1⟩
                rw [hku]
                exact self_mem_aset _ _ _
            · exact (mem_flatTabs _ t' k' g').mpr
                ⟨sess1, tabs1, mem_aset_of_ne _ _ _ _ hks1 hku, hgt1, ht1⟩
          · refine (mem_flatTabs _ t' k' g').mpr
              ⟨⟨aset sess.tabGroups g (tabs ++ [t])⟩, tabs ++ [t], ?_, ?_, ?_⟩
            · rw [hk0]
              exact self_mem_aset _ _ _
            · rw [hg0]
              exact self_mem_aset _ _ _
            · rw [ht0]
              exact List.mem_append_right _ (List.mem_singleton.mpr rfl)
      refine ⟨nodup_keys_aset _ _ _ hG1, ?_, ?_, ?_, nodup_keys_aset _ _ _ hG3, ?_⟩
      · intro ks hks
        rcases (mem_aset_iff _ _ _ _ hG1).mp hks with hnew | ⟨hold, _⟩
        · rw [hnew]
          exact nodup_keys_aset _ _ _ hsessnd
        · exact hG5 ks hold
      · intro ks hks gt hgt
        rcases (mem_aset_iff _ _ _ _ hG1).mp hks with hnew | ⟨hold, _⟩
        · rw [hnew] at hgt
          rcases (mem_aset_iff _ _ _ _ hsessnd).mp hgt with hg2 | ⟨hgold, _⟩
          · rw [hg2]
            rw [List.nodup_append]
            refine ⟨htabsnd, by simp, ?_⟩
            intro x hx hx2
            rcases List.mem_singleton.mp hx2 with rfl
            exact htnotin hx
          · exact hsessG6 gt hgold
        · exact hG6 ks hold gt hgt
      · intro p hp q hq hpq
        have hp' := (hflat p.1 p.2.1 p.2.2).mp (by simpa using hp)
        have hq' := (hflat q.1 q.2.1 q.2.2).mp (by simpa using hq)
        rcases hp' with hp' | ⟨hp1, hp2, hp3⟩
        · rcases hq' with hq' | ⟨hq1, hq2, hq3⟩
          · have := hG2 (p.1, p.2.1, p.2.2) hp' (q.1, q.2.1, q.2.2) hq' hpq
            simpa using this
          · exfalso
            apply htk
            refine (tabKnown_iff s t).mpr ⟨p.2.1, p.2.2, ?_⟩
            have : p.1 = t := hpq.trans hq1
            rw [← this]
            simpa using hp'
        · rcases hq' with hq' | ⟨hq1, hq2, hq3⟩
          · exfalso
            apply htk
            refine (tabKnown_iff s t).mpr ⟨q.2.1, q.2.2, ?_⟩
            have : q.1 = t := hpq.symm.trans hp1
            rw [← this]
            simpa using hq'
          · have hpe : p = (p.1, p.2.1, p.2.2) := rfl
            have hqe : q = (q.1, q.2.1, q.2.2) := rfl
            rw [hpe, hqe, hp1, hp2, hp3, hq1, hq2, hq3]
      · intro t' k'
        by_cases htt : t = t'
        · subst htt
          rw [alookup_aset_self]
          constructor
          · intro h
            cases h
            exact ⟨g, (hflat t u g).mpr (Or.inr ⟨rfl, rfl, rfl⟩)⟩
          · rintro ⟨g', hg'⟩
            rcases (hflat t k' g').mp hg' with hold | ⟨_, hku, _⟩
            · exact absurd ((tabKnown_iff s t).mpr ⟨k', g', hold⟩) htk
            · rw [hku]
        · rw [alookup_aset_ne _ _ _ _ htt, hG4 t' k']
          constructor
          · rintro ⟨g', h⟩
            exact ⟨g', (hflat _ _ _).mpr (Or.inl h)⟩
          · rintro ⟨g', h⟩
            rcases (hflat _ _ _).mp h with hold | ⟨hteq, _, _⟩
            · exact ⟨g', hold⟩
            · exact absurd hteq.symm htt
  | close u t =>
    cases hf : findTabById s t u with
    | none =>
      rw [show applyRegOp s (.close u t) = s from by simp [applyRegOp, hf]]
      exact ⟨hG1, hG5, hG6, hG2, hG3, hG4⟩
    | some kg =>
      obtain ⟨k, g⟩ := kg
      cases hs : alookup s.sessions k with
      | none =>
        rw [show applyRegOp s (.close u t) = s from by simp [applyRegOp, hf, hs]]
        exact ⟨hG1, hG5, hG6, hG2, hG3, hG4⟩
      | some sess =>
        have hksmem : (k, sess) ∈ s.sessions := alookup_mem _ _ _ hs
        have hG5sess : (sess.tabGroups.map Prod.fst).Nodup := hG5 (k, sess) hksmem
        rcases findTabById_some_mem _ _ _ _ _ hf with ⟨hmem, hkey⟩
        rcases (mem_flatTabs s t k g).mp hmem with ⟨sess1, tabs1, hks1, hgt1, ht1⟩
        have hsess1 : sess1 = sess := by
          have := alookup_of_mem _ _ _ hG1 hks1
          rw [hs] at this
          cases this
          rfl
        subst hsess1
        have halookg : alookup sess1.tabGroups g = some tabs1 :=
          alookup_of_mem _ _ _ hG5sess hgt1
        have hndtabs : tabs1.Nodup := hG6 (k, sess1) hksmem (g, tabs1) hgt1
        have happ : applyRegOp s (.close u t) =
            ⟨aset s.sessions k
              ⟨if tabs1.erase t = [] then aremove sess1.tabGroups g
                else aset sess1.tabGroups g (tabs1.erase t)⟩,
             aremove s.index t⟩ := by
          simp only [applyRegOp, hf, hs, halookg]
          rfl
        rw [happ]
        have hflat : ∀ t' k' g',
            (t', k', g') ∈ flatTabs
              ⟨aset s.sessions k
                ⟨if tabs1.erase t = [] then aremove sess1.tabGroups g
                  else aset sess1.tabGroups g (tabs1.erase t)⟩,
               aremove s.index t⟩ ↔
              ((t', k', g') ∈ flatTabs s ∧ ¬ (t', k', g') = (t, k, g)) := by
          intro t' k' g'
          constructor
          · intro hp
            rcases (mem_flatTabs _ t' k' g').mp hp with ⟨sess2, tabs2, hks2, hgt2, ht2⟩
            rcases (mem_aset_iff _ _ _ _ hG1).mp hks2 with hnew | ⟨hold, hne⟩
            · injection hnew with hkk hsess2
              subst hkk
              subst hsess2
              by_cases hemp : tabs1.erase t = []
              · rw [if_pos hemp] at hgt2
                rcases (mem_aremove_iff _ _ _ hG5sess).mp hgt2 with ⟨hgold, hgne⟩
                refine ⟨(mem_flatTabs s t' k' g').mpr ⟨sess1, tabs2, hksmem, hgold, ht2⟩, ?_⟩
                intro hc
                injection hc with h1 hrest
                injection hrest with h2 h3
                exact hgne h3
              · rw [if_neg hemp] at hgt2
                rcases (mem_aset_iff _ _ _ _ hG5sess).mp hgt2 with hg2 | ⟨hgold, hgne⟩
                · injection hg2 with hgg htabs2
                  subst hgg
                  subst htabs2
                  rcases (List.Nodup.mem_erase_iff hndtabs).mp ht2 with ⟨htne, htmem⟩
                  refine ⟨(mem_flatTabs s t' k' g').mpr ⟨sess1, tabs1, hksmem, hgt1, htmem⟩, ?_⟩
                  intro hc
                  injection hc with h1 hrest
                  exact htne h1
                · refine ⟨(mem_flatTabs s t' k' g').mpr ⟨sess1, tabs2, hksmem, hgold, ht2⟩, ?_⟩
                  intro hc
                  injection hc with h1 hrest
                  injection hrest with h2 h3
                  exact hgne h3
            · refine ⟨(mem_flatTabs s t' k' g').mpr ⟨sess2, tabs2, hold, hgt2, ht2⟩, ?_⟩
              intro hc
              injection hc with h1 hrest
              injection hrest with h2 h3
              exact hne h2
          · rintro ⟨hmem2, hne2⟩
            rcases (mem_flatTabs s t' k' g').mp hmem2 with ⟨sess2, tabs2, hks2, hgt2, ht2⟩
            by_cases hkk : k' = k
            · subst hkk
              have hsess2 : sess2 = sess1 := by
                have := alookup_of_mem _ _ _ hG1 hks2
                rw [hs] at this
                cases this
                rfl
              subst hsess2
              by_cases hgg : g' = g
              · subst hgg
                have htabs2 : tabs2 = tabs1 := by
                  have := alookup_of_mem _ _ _ hG5sess hgt2
                  rw [halookg] at this
                  cases this
                  rfl
                subst htabs2
                have htne : ¬ t' = t := by
                  intro hc
                  subst hc
                  exact hne2 rfl
                have hterase : t' ∈ tabs2.erase t :=
                  (List.Nodup.mem_erase_iff hndtabs).mpr ⟨htne, ht2⟩
                have hemp : ¬ tabs2.erase t = [] := by
                  intro hc
                  rw [hc] at hterase
                  cases hterase
                refine (mem_flatTabs _ t' k' g').mpr
                  ⟨⟨if tabs2.erase t = [] then aremove sess2.tabGroups g'
                      else aset sess2.tabGroups g' (tabs2.erase t)⟩,
                   tabs2.erase t, self_mem_aset _ _ _, ?_, hterase⟩
                rw [if_neg hemp]
                exact self_mem_aset _ _ _
              · refine (mem_flatTabs _ t' k' g').mpr
                  ⟨⟨if tabs1.erase t = [] then aremove sess2.tabGroups g
                      else aset sess2.tabGroups g (tabs1.erase t)⟩,
                   tabs2, self_mem_aset _ _ _, ?_, ht2⟩
                by_cases hemp : tabs1.erase t = []
                · rw [if_pos hemp]
                  exact (mem_aremove_iff _ _ _ hG5sess).mpr ⟨hgt2, hgg⟩
                · rw [if_neg hemp]
                  exact mem_aset_of_ne _ _ _ _ hgt2 hgg
            · exact (mem_flatTabs _ t' k' g').mpr
                ⟨sess2, tabs2, mem_aset_of_ne _ _ _ _ hks2 hkk, hgt2, ht2⟩
        refine ⟨nodup_keys_aset _ _ _ hG1, ?_, ?_, ?_, ?_, ?_⟩
        · intro ks hks
          rcases (mem_aset_iff _ _ _ _ hG1).mp hks with hnew | ⟨hold, _⟩
          · rw [hnew]
            by_cases hemp : tabs1.erase t = []
            · rw [if_pos hemp]
              exact ((aremove_sublist _ _).map Prod.fst).nodup hG5sess
            · rw [if_neg hemp]
              exact nodup_keys_aset _ _ _ hG5sess
          · exact hG5 ks hold
        · intro ks hks gt hgt
          rcases (mem_aset_iff _ _ _ _ hG1).mp hks with hnew | ⟨hold, _⟩
          · rw [hnew] at hgt
            by_cases hemp : tabs1.erase t = []
            · rw [if_pos hemp] at hgt
              exact hG6 (k, sess1) hksmem gt ((aremove_sublist _ _).mem hgt)
            · rw [if_neg hemp] at hgt
              rcases (mem_aset_iff _ _ _ _ hG5sess).mp hgt with hg2 | ⟨hgold, _⟩
              · rw [hg2]
                exact List.Nodup.erase _ hndtabs
              · exact hG6 (k, sess1) hksmem gt hgold
          · exact hG6 ks hold gt hgt
        · intro p hp q hq hpq
          have hp' := ((hflat p.1 p.2.1 p.2.2).mp (by simpa using hp)).1
          have hq' := ((hflat q.1 q.2.1 q.2.2).mp (by simpa using hq)).1
          have := hG2 (p.1, p.2.1, p.2.2) hp' (q.1, q.2.1, q.2.2) hq' hpq
          simpa using this
        · exact ((aremove_sublist _ _).map Prod.fst).nodup hG3
        · intro t' k'
          by_cases htt : t = t'
          · subst htt
            rw [alookup_aremove_self _ _ hG3]
            constructor
            · intro h
              cases h
            · rintro ⟨g', hg'⟩
              rcases (hflat t k' g').mp hg' with ⟨hold, hne⟩
              have := hG2 (t, k', g') hold (t, k, g) hmem rfl
              exact absurd this hne
          · rw [alookup_aremove_ne _ _ _ htt, hG4 t' k']
            constructor
            · rintro ⟨g', h⟩
              refine ⟨g', (hflat _ _ _).mpr ⟨h, ?_⟩⟩
              intro hc
              injection hc with h1 _
              exact htt h1.symm
            · rintro ⟨g', h⟩
              exact ⟨g', ((hflat _ _ _).mp h).1⟩

theorem regWF_foldl (ops : List RegOp) :
    ∀ s : RegState, RegWF s → RegWF (ops.foldl applyRegOp s) := by
  induction ops with
  | nil => intro s hs; exact hs
  | cons op rest ih =>
    intro s hs
    exact ih (applyRegOp s op) (regWF_apply s op hs)

theorem regWF_empty : RegWF ⟨[], []⟩ := by
  refine ⟨by simp, ?_, ?_, ?_, by simp, ?_⟩ <;>
    simp [flatTabs, alookup]

theorem runReg_wf (ops : List RegOp) : RegWF (runReg ops) :=
  regWF_foldl ops ⟨[], []⟩ regWF_empty

theorem ownerOf_iff (s : RegState) (hwf : RegWF s) (t k : String) :
    ownerOf s t = some k ↔ ∃ g, (t, k, g) ∈ flatTabs s := by
  obtain ⟨hG1, hG5, hG6, hG2, hG3, hG4⟩ := hwf
  unfold ownerOf
  constructor
  · intro h
    rw [Option.map_eq_some'] at h
    rcases h with ⟨p, hfind, hk⟩
    have hmem : p ∈ flatTabs s := List.mem_of_find?_eq_some hfind
    have hpt : p.1 = t := by
      have h5 := List.find?_some hfind
      simpa using h5
    refine ⟨p.2.2, ?_⟩
    have hpe : (p.1, p.2.1, p.2.2) = p := rfl
    rw [← hk, ← hpt]
    rw [hpe]
    exact hmem
  · rintro ⟨g, hmem⟩
    have hex : ∃ p ∈ flatTabs s, (fun p => decide (p.1 = t)) p = true :=
      ⟨(t, k, g), hmem, by simp⟩
    rcases Option.isSome_iff_exists.mp (List.find?_isSome.mpr hex) with ⟨q, hq⟩
    have hqmem : q ∈ flatTabs s := List.mem_of_find?_eq_some hq
    have hqt : q.1 = t := by
      have h5 := List.find?_some hq
      simpa using h5
    have hqe : q = (t, k, g) := hG2 q hqmem (t, k, g) hmem hqt
    rw [hq, hqe]
    rfl

/-- C1: amended tab-ownership characterization.  In every reachable registry
state, `findTabById t u` succeeds iff the session key `k` owning `t` satisfies
the colon-prefix match `k = u ∨ k.startsWith (u ++ ":")` — not iff `t` was
created by `u`: a tab created under session key `"a:b"` is reachable by user
`"a"`. -/
theorem C1_findTabById_ownership_amended (ops : List RegOp) (t u : String) :
    (findTabById (runReg ops) t u).isSome = true ↔
      ∃ k, ownerOf (runReg ops) t = some k ∧ keyMatchesUser k u = true := by
  have hwf := runReg_wf ops
  rw [findTabById_isSome_iff _ hwf t u]
  constructor
  · rintro ⟨k, g, hmem, hmatch⟩
    exact ⟨k, (ownerOf_iff _ hwf t k).mpr ⟨g, hmem⟩, hmatch⟩
  · rintro ⟨k, howner, hmatch⟩
    rcases (ownerOf_iff _ hwf t k).mp howner with ⟨g, hmem⟩
    exact ⟨k, g, hmem, hmatch⟩

/-- C1 counterexample: the tab `"t1"` created under session key `"a:b"`
(user id `"a:b"`) is found by `findTabById` for the distinct user `"a"`,
because the ownership test accepts any indexed key starting with the
requesting user id followed by a colon. -/
theorem C1_counterexample :
    (findTabById (runReg [RegOp.create "a:b" "g" "t1"]) "t1" "a").isSome = true ∧
    ownerOf (runReg [RegOp.create "a:b" "g" "t1"]) "t1" = some "a:b" ∧
    "a:b" ≠ "a" := by
  refine ⟨by decide, by decide, by decide⟩

theorem C3_downloadCap_amended_witness :
    (((⟨[⟨"a1", "u", DStatus.completed, 0, some 10, "fa"⟩], []⟩ : DReg).entries.map
        DInfo.id).Nodup) ∧
    userCount
        (upsertDownload 1 ⟨[⟨"a1", "u", DStatus.completed, 0, some 10, "fa"⟩], []⟩
          ⟨"b2", "u", DStatus.pending, 20, none, "fb"⟩) "u" ≤
      max 1 (userCount (⟨[⟨"a1", "u", DStatus.completed, 0, some 10, "fa"⟩], []⟩ : DReg) "u") :=
  ⟨by decide,
   (C3_downloadCap_amended 1 ⟨[⟨"a1", "u", DStatus.completed, 0, some 10, "fa"⟩], []⟩
      ⟨"b2", "u", DStatus.pending, 20, none, "fb"⟩ (by decide)).2.2
    (by decide)
    (Or.inr ⟨⟨"a1", "u", DStatus.completed, 0, some 10, "fa"⟩,
      List.mem_singleton.mpr rfl, rfl, by intro h; cases h⟩)⟩

end Camofox
